import Mathlib

/-!
Formal model of the BandageNG assembly-graph core: the de Bruijn graph data
model, the exact-overlap resolver, the loop-safe path tracer and reachability
search (src/graph/debruijnedge.cpp, src/graph/debruijnnode.h), and the
query-path scorer (src/graphsearch/querypath.cpp).

Nodes and edges are modelled as an arena addressed by natural-number handles:
a `Nat` stands for a C++ pointer, and pointer equality becomes handle
equality.  C++ `int` values are modelled as `Int`, C++ `double` values as
`Rat` (the claims under study depend on exact comparison logic, not on
floating-point rounding).  Recursive traversals carry an explicit fuel
parameter; the C++ code recurses without fuel, so `none` (fuel exhausted)
never corresponds to a C++ behaviour, and the theorems below prove the fuel
chosen by the wrappers is always sufficient.
-/

namespace Bandage

/-- A de Bruijn graph node (class `DeBruijnNode`, src/graph/debruijnnode.h).
`name`, `seq` and `length` model `m_name`, `m_sequence` and `m_length`;
`rc` models the `m_reverseComplement` pointer and `edges` the `m_edges`
incident-edge list.  `positive` is modelled from the spec: the node
identifier carries a strand sign, and `isPositiveNode`/`isNegativeNode`
(declared in debruijnnode.h, defined outside the sources at hand) report
that sign. -/
structure DeBruijnNode where
  name : String
  positive : Bool
  seq : List Char
  length : Int
  rc : Nat
  edges : List Nat
  deriving DecidableEq

instance : Inhabited DeBruijnNode := ⟨⟨"", true, [], 0, 0, []⟩⟩

/-- A directed edge (class `DeBruijnEdge`): ordered endpoint pair, the
`m_reverseComplement` pointer and the `m_overlap` value. -/
structure DeBruijnEdge where
  startingNode : Nat
  endingNode : Nat
  rc : Nat
  overlap : Int
  deriving DecidableEq

instance : Inhabited DeBruijnEdge := ⟨⟨0, 0, 0, 0⟩⟩

/-- The assembly graph: arenas of nodes and edges addressed by handles. -/
structure AssemblyGraph where
  nodes : List DeBruijnNode
  edges : List DeBruijnEdge
  deriving DecidableEq

/-- Dereference a node handle. -/
def AssemblyGraph.node (G : AssemblyGraph) (i : Nat) : DeBruijnNode :=
  G.nodes.getD i default

/-- Dereference an edge handle. -/
def AssemblyGraph.edge (G : AssemblyGraph) (i : Nat) : DeBruijnEdge :=
  G.edges.getD i default

/-- Well-formedness of the pointer graph: every edge endpoint is a live node
handle and every handle on a node's incident list is a live edge handle. -/
def AssemblyGraph.WF (G : AssemblyGraph) : Prop :=
  (∀ e ∈ G.edges, e.startingNode < G.nodes.length ∧ e.endingNode < G.nodes.length) ∧
  (∀ n ∈ G.nodes, ∀ eid ∈ n.edges, eid < G.edges.length)

instance (G : AssemblyGraph) : Decidable G.WF := by
  unfold AssemblyGraph.WF; infer_instance

/-- `DeBruijnNode::getBaseAt` (debruijnnode.h line 58):
`if (i >= 0 && i < m_sequence.size()) return m_sequence[i]; else return '\0';` -/
def DeBruijnNode.getBaseAt (n : DeBruijnNode) (i : Int) : Char :=
  if 0 ≤ i ∧ i < (n.seq.length : Int) then n.seq.getD i.toNat (Char.ofNat 0)
  else Char.ofNat 0

/-- `DeBruijnNode::isPositiveNode`. Modelled from the spec: the identifier
carries a strand sign and this reports whether it is positive. -/
def DeBruijnNode.isPositiveNode (n : DeBruijnNode) : Bool := n.positive

/-- `DeBruijnNode::isNegativeNode`. Modelled from the spec: the strand sign
is either positive or negative. -/
def DeBruijnNode.isNegativeNode (n : DeBruijnNode) : Bool := !n.positive

/-- `DeBruijnEdge::testExactOverlap` (debruijnedge.cpp lines 308-324): try
the given overlap; compare the starting node's bases from offset
`getLength() - overlap` with the ending node's bases from offset 0, and
report whether no mismatch was found. -/
def testExactOverlap (G : AssemblyGraph) (e : DeBruijnEdge) (overlap : Int) : Bool :=
  let seq1Offset := (G.node e.startingNode).length - overlap
  (List.range overlap.toNat).all fun j =>
    (G.node e.startingNode).getBaseAt (seq1Offset + (j : Int)) ==
      (G.node e.endingNode).getBaseAt (j : Int)

/-- The scan loop of `DeBruijnEdge::autoDetermineExactOverlap` (lines
289-300): try `testOverlap`, then increment it, wrapping from `max` back to
`min`, for the given number of iterations; the first success is assigned,
otherwise the overlap stays 0. -/
def overlapScan (G : AssemblyGraph) (e : DeBruijnEdge) (lo hi : Int) :
    Int → Nat → Int
  | _, 0 => 0
  | testOverlap, iters + 1 =>
      if testExactOverlap G e testOverlap then testOverlap
      else overlapScan G e lo hi (if testOverlap + 1 > hi then lo else testOverlap + 1) iters

/-- `DeBruijnEdge::autoDetermineExactOverlap` (debruijnedge.cpp lines
273-301), returning the final `m_overlap`.  `minA`/`maxA` stand for the
settings `minAutoFindEdgeOverlap`/`maxAutoFindEdgeOverlap` and `r` for the
value of `rand()` (a nonnegative int). -/
def autoDetermineExactOverlap (G : AssemblyGraph) (e : DeBruijnEdge)
    (minA maxA : Int) (r : Nat) : Int :=
  let minPossibleOverlap := min (G.node e.startingNode).length (G.node e.endingNode).length
  if minPossibleOverlap < minA then 0
  else
    let lo := min minPossibleOverlap minA
    let hi := min minPossibleOverlap maxA
    overlapScan G e lo hi (lo + (r : Int) % (hi - lo + 1)) (hi - lo + 1).toNat

/-- The node an edge leads to in the traversal direction: the ending node
when tracing forward, the starting node when tracing backward. -/
def nextNodeOf (forward : Bool) (e : DeBruijnEdge) : Nat :=
  if forward then e.endingNode else e.startingNode

/-- `DeBruijnEdge::findNextEdgesInPath` (debruijnedge.cpp lines 253-267):
the incident edges of `nextNode` leading away from it (forward) or into it
(backward). -/
def findNextEdgesInPath (G : AssemblyGraph) (nextNode : Nat) (forward : Bool) : List Nat :=
  (G.node nextNode).edges.filter fun eid =>
    (forward && decide ((G.edge eid).startingNode = nextNode)) ||
    (!forward && decide ((G.edge eid).endingNode = nextNode))

/-- `DeBruijnEdge::timesNodeInPath` (debruijnedge.cpp lines 166-172). -/
def timesNodeInPath (node : Nat) (path : List Nat) : Nat :=
  path.count node

/-- `DeBruijnEdge::leadsOnlyToNode` (debruijnedge.cpp lines 176-250) with an
explicit fuel parameter bounding recursion depth (`none` = fuel exhausted;
the C++ recursion has no fuel, and the wrapper's fuel is proved sufficient).
The loop over `nextEdges` is the C++ `for` with its early `return false`:
once the state is `some false` (or `none`) the remaining edges are not
examined. -/
def leadsOnlyToNodeF (G : AssemblyGraph) (forward : Bool) (target : Nat)
    (includeReverseComplement : Bool) :
    Nat → Int → Nat → List Nat → Option Bool
  | 0, _, _, _ => none
  | fuel + 1, stepsRemaining, eid, pathSoFar =>
      let nextNode := nextNodeOf forward (G.edge eid)
      let path := pathSoFar ++ [nextNode]
      if nextNode = path.getD 0 0 then some false
      else if nextNode = target then some true
      else if includeReverseComplement && decide ((G.node nextNode).rc = target) then some true
      else if stepsRemaining - 1 = 0 then some false
      else
        let nextEdges := findNextEdgesInPath G nextNode forward
        if nextEdges = [] then some false
        else
          nextEdges.foldl (fun st nextEdge =>
            match st with
            | some true =>
                if timesNodeInPath (nextNodeOf forward (G.edge nextEdge)) path < 2 then
                  leadsOnlyToNodeF G forward target includeReverseComplement fuel
                    (stepsRemaining - 1) nextEdge path
                else some true
            | other => other) (some true)

/-- Entry point of `leadsOnlyToNode`: the caller
(`DeBruijnNode::doesPathLeadOnlyToNode`) starts the search with `pathSoFar`
holding just the origin node.  The fuel `stepsRemaining.toNat + 1` bounds the
recursion depth; it is proved sufficient whenever `stepsRemaining ≥ 1`. -/
def leadsOnlyToNode (G : AssemblyGraph) (forward : Bool) (stepsRemaining : Int)
    (eid target : Nat) (pathSoFar : List Nat) (includeReverseComplement : Bool) :
    Option Bool :=
  leadsOnlyToNodeF G forward target includeReverseComplement
    (stepsRemaining.toNat + 1) stepsRemaining eid pathSoFar

/-- `DeBruijnEdge::tracePaths` (debruijnedge.cpp lines 98-162) with an
explicit fuel parameter (`none` = fuel exhausted; the wrapper's fuel is
proved sufficient).  Returns the list of paths appended to `allPaths`, in
the order the C++ code appends them. -/
def tracePathsF (G : AssemblyGraph) (forward : Bool) (startingNode : Nat) :
    Nat → Int → Nat → List Nat → Option (List (List Nat))
  | 0, _, _, _ => none
  | fuel + 1, stepsRemaining, eid, pathSoFar =>
      let nextNode := nextNodeOf forward (G.edge eid)
      let path := pathSoFar ++ [nextNode]
      if stepsRemaining - 1 = 0 then some [path]
      else
        let nextEdges := findNextEdgesInPath G nextNode forward
        if nextEdges = [] then some [path]
        else
          nextEdges.foldl (fun st nextEdge =>
            match st with
            | none => none
            | some allPaths =>
                let nextNextNode := nextNodeOf forward (G.edge nextEdge)
                if nextNextNode = startingNode then some (allPaths ++ [path])
                else if timesNodeInPath nextNextNode path < 2 then
                  match tracePathsF G forward startingNode fuel
                      (stepsRemaining - 1) nextEdge path with
                  | none => none
                  | some sub => some (allPaths ++ sub)
                else some allPaths) (some [])

/-- Entry point of `tracePaths`: callers start with an empty `pathSoFar`.
The fuel `2 * G.nodes.length + 2` bounds the recursion depth; the
visited-at-most-twice rule makes it sufficient for every `stepsRemaining`
(theorem below). -/
def tracePaths (G : AssemblyGraph) (forward : Bool) (stepsRemaining : Int)
    (eid startingNode : Nat) : Option (List (List Nat)) :=
  tracePathsF G forward startingNode (2 * G.nodes.length + 2) stepsRemaining eid []

/-- `DeBruijnEdge::isPositiveEdge` (debruijnedge.cpp lines 71-90).  The
`isOwnReverseComplement` test is `m_reverseComplement == this`, i.e. the
edge's reverse-complement handle is the edge itself. -/
def isPositiveEdge (G : AssemblyGraph) (eid : Nat) : Bool :=
  let e := G.edge eid
  if (G.node e.startingNode).isPositiveNode && (G.node e.endingNode).isPositiveNode then true
  else if (G.node e.startingNode).isNegativeNode && (G.node e.endingNode).isNegativeNode then false
  else if e.rc = eid then true
  else decide ((G.node (G.edge e.rc).startingNode).name < (G.node e.startingNode).name)

/-- Scientific-notation value (class `SciNot`, not among the sources at
hand).  Modelled from the spec: a coefficient × 10^exponent pair. -/
structure SciNot where
  coefficient : Rat
  exponent : Int
  deriving DecidableEq

instance : Inhabited SciNot := ⟨⟨1, 0⟩⟩

/-- Modelled from the spec: the `SciNot` constructor renormalizes so the
coefficient lies in [1, 10).  For a positive coefficient the decimal shift
is `Int.log 10 c`; nonpositive coefficients are left untouched (e-values
are positive). -/
def SciNot.make (c : Rat) (e : Int) : SciNot :=
  if 0 < c then ⟨c / (10 : Rat) ^ Int.log 10 c, e + Int.log 10 c⟩ else ⟨c, e⟩

/-- Modelled from the spec: `SciNot` supports exponentiation by a real
power, used to shrink an e-value when its alignment region overlaps a
neighbouring hit.  The source of `SciNot::power` is not among the files at
hand and a real power of a rational is in general irrational; the model
scales the exponent by the power, rounding down, which is exact whenever
the coefficient is 1.  No theorem below depends on the value this returns. -/
def SciNot.power (s : SciNot) (p : Rat) : SciNot :=
  SciNot.make s.coefficient ⌊(s.exponent : Rat) * p⌋

/-- Modelled from the spec: comparison of `SciNot` values, ascending in the
represented number; on normalized representations (coefficient in [1, 10))
this is the lexicographic order on (exponent, coefficient). -/
def SciNot.lt (a b : SciNot) : Bool :=
  decide (a.exponent < b.exponent) ||
    (decide (a.exponent = b.exponent) && decide (a.coefficient < b.coefficient))

/-- The sequence type a query declares (nucleotide or protein). -/
inductive SequenceType where
  | nucleotide
  | protein
  deriving DecidableEq

/-- A BLAST hit (class `Hit`): the node it lies on, its 1-based inclusive
node-coordinate and query-coordinate spans, and its alignment statistics. -/
structure Hit where
  node : Nat
  nodeStart : Int
  nodeEnd : Int
  queryStart : Int
  queryEnd : Int
  percentIdentity : Rat
  alignmentLength : Int
  eValue : SciNot
  deriving DecidableEq

instance : Inhabited Hit := ⟨⟨0, 1, 1, 1, 1, 0, 0, ⟨1, 0⟩⟩⟩

/-- `Hit::getNodeLength`.  Modelled from the spec: the length of the hit's
1-based inclusive node-coordinate span. -/
def Hit.getNodeLength (h : Hit) : Int :=
  h.nodeEnd - h.nodeStart + 1

/-- A query (class `Query`): its hits in discovery order, its length, and
its declared sequence type. -/
structure Query where
  hits : List Hit
  length : Int
  sequenceType : SequenceType
  deriving DecidableEq

/-- `Query::fractionCoveredByHits`.  Modelled from the spec: the fraction
of the query's bases (1-based positions 1..length) covered by the union of
the given hits' query spans. -/
def fractionCoveredByHits (q : Query) (hits : List Hit) : Rat :=
  (((List.range q.length.toNat).countP fun p =>
      hits.any fun h =>
        decide (h.queryStart ≤ (p : Int) + 1) && decide ((p : Int) + 1 ≤ h.queryEnd)) : Rat)
    / (q.length : Rat)

/-- A path (class `Path`): the ordered node chain, the connecting edges,
and the 1-based inclusive clip positions into the first and last node.
Modelled from the spec for the clip positions: `startPosition` and
`endPosition` are what `getStartLocation().getPosition()` and
`getEndLocation().getPosition()` return; for a whole-node path they are 1
and the last node's length. -/
structure Path where
  nodes : List Nat
  edges : List Nat
  startPosition : Int
  endPosition : Int
  deriving DecidableEq

/-- `Path::getLength`.  Modelled from the spec: the merged sequence length
is the sum of the node lengths minus each junction's overlap, adjusted for
the start/end clipping. -/
def Path.getLength (G : AssemblyGraph) (p : Path) : Int :=
  ((p.nodes.map fun n => (G.node n).length).sum
      - (p.edges.map fun e => (G.edge e).overlap).sum)
    - (p.startPosition - 1)
    - ((G.node (p.nodes.getLastD 0)).length - p.endPosition)

/-- A query path (class `QueryPath`): a path, the query, and the admitted
hit chain (the second `QueryPath` constructor takes the hits directly). -/
structure QueryPath where
  path : Path
  query : Query
  hits : List Hit
  deriving DecidableEq

/-- The clipping admission test of the `QueryPath` constructor
(querypath.cpp lines 58-59): a hit collected at position `i` of the path is
inside the path unless it is at the first position and starts before the
path's start position, or at the last position and ends after the path's
end position. -/
def hitWithinPath (path : Path) (i : Nat) (hit : Hit) : Bool :=
  (decide (i ≠ 0) || decide (path.startPosition ≤ hit.nodeStart)) &&
    (decide (i ≠ path.nodes.length - 1) || decide (hit.nodeEnd ≤ path.endPosition))

/-- Insertion step of sorting hits by ascending `queryStart` (the
`std::sort` call in the `QueryPath` constructor; `std::sort` leaves the
order of ties unspecified, and this stable insertion sort is one valid
refinement). -/
def insertHitByQueryStart (hit : Hit) : List Hit → List Hit
  | [] => [hit]
  | x :: xs =>
      if hit.queryStart < x.queryStart then hit :: x :: xs
      else x :: insertHitByQueryStart hit xs

/-- Sort hits by ascending `queryStart`. -/
def sortHitsByQueryStart (hits : List Hit) : List Hit :=
  hits.foldr insertHitByQueryStart []

/-- Admission of a single collected hit (querypath.cpp lines 54-67): admit
it if it lies within the path at this position and its query start strictly
exceeds the previous admitted hit's. -/
def admitHit (path : Path) (i : Nat) (st : Option Hit × List Hit) (hit : Hit) :
    Option Hit × List Hit :=
  if hitWithinPath path i hit then
    match st.1 with
    | none => (some hit, st.2 ++ [hit])
    | some previousHit =>
        if previousHit.queryStart < hit.queryStart then (some hit, st.2 ++ [hit])
        else st
  else st

/-- Processing of one path position by the `QueryPath` constructor
(querypath.cpp lines 40-68): collect the query's hits on this node, sort
them by query start, and admit each in turn.  The state is
(`previousHit`, admitted hits so far). -/
def constructHitsStep (path : Path) (query : Query) (st : Option Hit × List Hit)
    (p : Nat × Nat) : Option Hit × List Hit :=
  (sortHitsByQueryStart (query.hits.filter fun h => h.node == p.2)).foldl
    (admitHit path p.1) st

/-- The hit chain built by the `QueryPath(Path, Query)` constructor
(querypath.cpp lines 32-69). -/
def constructHits (path : Path) (query : Query) : List Hit :=
  (path.nodes.enum.foldl (constructHitsStep path query) (none, [])).2

/-- The `QueryPath(Path, Query)` constructor. -/
def QueryPath.ofPathQuery (path : Path) (query : Query) : QueryPath :=
  ⟨path, query, constructHits path query⟩

/-- Lookup in the graph's edge map `m_deBruijnGraphEdges` keyed by the
ordered endpoint pair, as used by `QueryPath::getHitOverlap`. -/
def AssemblyGraph.lookupEdge (G : AssemblyGraph) (a b : Nat) : Option DeBruijnEdge :=
  G.edges.find? fun e => decide (e.startingNode = a) && decide (e.endingNode = b)

/-- `QueryPath::getHitOverlap` (querypath.cpp lines 127-158). -/
def getHitOverlap (G : AssemblyGraph) (hit1 hit2 : Hit) : Int :=
  if hit1.node = hit2.node then
    let hit1Start := hit1.nodeStart - 1
    let hit1End := hit1.nodeEnd
    let hit2Start := hit2.nodeStart - 1
    let hit2End := hit2.nodeEnd
    let overlap := min hit1End hit2End - max hit1Start hit2Start
    if 0 < overlap then overlap else 0
  else
    match G.lookupEdge hit1.node hit2.node with
    | some edge =>
        let hit1Start := hit1.nodeStart
        let hit1End := hit1.nodeEnd
        let hit1NodeLen := (G.node hit1.node).length
        let hit2Start := hit2.nodeStart + hit1NodeLen - edge.overlap
        let hit2End := hit2.nodeEnd + hit1NodeLen - edge.overlap
        let overlap := min hit1End hit2End - max hit1Start hit2Start
        if 0 < overlap then overlap else 0
    | none => 0

/-- `QueryPath::getMeanHitPercIdentity` (querypath.cpp lines 74-87). -/
def QueryPath.getMeanHitPercIdentity (qp : QueryPath) : Rat :=
  let totalHitLength := (qp.hits.map fun h => h.alignmentLength).sum
  let sum := (qp.hits.map fun h => h.percentIdentity * (h.alignmentLength : Rat)).sum
  if totalHitLength = 0 then 0 else sum / (totalHitLength : Rat)

/-- `QueryPath::getEvalueProduct` (querypath.cpp lines 93-124): multiply the
hits' e-values, discounting each hit's e-value by the power
`(nodeLength − overlapToRemove) / nodeLength` when it overlaps its previous
or next neighbour in the chain. -/
def QueryPath.getEvalueProduct (G : AssemblyGraph) (qp : QueryPath) : SciNot :=
  let st := qp.hits.enum.foldl (fun (acc : Rat × Int) (p : Nat × Hit) =>
    let i := p.1
    let thisHit := p.2
    let removePrev : Rat :=
      if 0 < i then
        let overlap := getHitOverlap G (qp.hits.getD (i - 1) default) thisHit
        if 0 < overlap then (overlap : Rat) / 2 else 0
      else 0
    let removeNext : Rat :=
      if i + 1 < qp.hits.length then
        let overlap := getHitOverlap G thisHit (qp.hits.getD (i + 1) default)
        if 0 < overlap then (overlap : Rat) / 2 else 0
      else 0
    let eValueLenToRemove := removePrev + removeNext
    let ev :=
      if 0 < eValueLenToRemove then
        let thisHitLength := thisHit.getNodeLength
        thisHit.eValue.power (((thisHitLength : Rat) - eValueLenToRemove) / (thisHitLength : Rat))
      else thisHit.eValue
    (acc.1 * ev.coefficient, acc.2 + ev.exponent)) (1, 0)
  SciNot.make st.1 st.2

/-- The largest double, `std::numeric_limits<double>::max()`
= (2 − 2⁻⁵²)·2¹⁰²³, as an exact rational. -/
def doubleMax : Rat := (2 ^ 1024 : Rat) - 2 ^ 971

/-- `QueryPath::getHitQueryLength` (querypath.cpp lines 244-253): reads the
front and back of the hit chain, so it is undefined (`none`) on an empty
chain. -/
def QueryPath.getHitQueryLength (qp : QueryPath) : Option Int :=
  match qp.hits.head?, qp.hits.getLast? with
  | some front, some back =>
      let hitQueryLength := back.queryEnd - front.queryStart + 1
      some (if qp.query.sequenceType = SequenceType.protein then hitQueryLength * 3
            else hitQueryLength)
  | _, _ => none

/-- `QueryPath::getRelativeLengthDiscrepancy` (querypath.cpp lines 164-172).
The empty-chain guard returns `DBL_MAX`.  The `none` fallback of
`getHitQueryLength` is unreachable here because the chain is nonempty. -/
def QueryPath.getRelativeLengthDiscrepancy (G : AssemblyGraph) (qp : QueryPath) : Rat :=
  if qp.hits = [] then doubleMax
  else
    match qp.getHitQueryLength with
    | some hitQueryLength =>
        ((Path.getLength G qp.path - hitQueryLength : Int) : Rat) / (hitQueryLength : Rat)
    | none => 0

/-- `QueryPath::getRelativePathLength` (querypath.cpp lines 178-180): no
empty-chain guard, so the result is undefined (`none`) on an empty chain. -/
def QueryPath.getRelativePathLength (G : AssemblyGraph) (qp : QueryPath) : Option Rat :=
  qp.getHitQueryLength.map fun hitQueryLength =>
    (Path.getLength G qp.path : Rat) / (hitQueryLength : Rat)

/-- `QueryPath::getAbsolutePathLengthDifference` (querypath.cpp lines
186-188): no empty-chain guard, so undefined (`none`) on an empty chain. -/
def QueryPath.getAbsolutePathLengthDifference (G : AssemblyGraph) (qp : QueryPath) :
    Option Int :=
  qp.getHitQueryLength.map fun hitQueryLength =>
    Path.getLength G qp.path - hitQueryLength

/-- `QueryPath::getPathQueryCoverage` (querypath.cpp lines 220-232). -/
def QueryPath.getPathQueryCoverage (qp : QueryPath) : Rat :=
  match qp.hits.head?, qp.hits.getLast? with
  | some front, some back =>
      let queryStart := front.queryStart
      let queryEnd := back.queryEnd
      let queryLength := qp.query.length
      let notIncluded := (queryStart - 1) + (queryLength - queryEnd)
      1 - (notIncluded : Rat) / (queryLength : Rat)
  | _, _ => 0

/-- `QueryPath::getHitsQueryCoverage` (querypath.cpp lines 237-239). -/
def QueryPath.getHitsQueryCoverage (qp : QueryPath) : Rat :=
  fractionCoveredByHits qp.query qp.hits

/-- `QueryPath::operator<` (querypath.cpp lines 272-303), the `better-than`
ordering used to sort candidate paths from best to worst. -/
def ltQueryPath (G : AssemblyGraph) (a b : QueryPath) : Bool :=
  let aEValueProduct := a.getEvalueProduct G
  let bEValueProduct := b.getEvalueProduct G
  if aEValueProduct ≠ bEValueProduct then SciNot.lt aEValueProduct bEValueProduct
  else
    let aMeanPercIdentity := a.getMeanHitPercIdentity
    let bMeanPercIdentity := b.getMeanHitPercIdentity
    if aMeanPercIdentity ≠ bMeanPercIdentity then decide (bMeanPercIdentity < aMeanPercIdentity)
    else
      let aLengthDiscrepancy := |a.getRelativeLengthDiscrepancy G|
      let bLengthDiscrepancy := |b.getRelativeLengthDiscrepancy G|
      if aLengthDiscrepancy ≠ bLengthDiscrepancy then decide (aLengthDiscrepancy < bLengthDiscrepancy)
      else
        let aHitsQueryCoverage := a.getHitsQueryCoverage
        let bHitsQueryCoverage := b.getHitsQueryCoverage
        if aHitsQueryCoverage ≠ bHitsQueryCoverage then decide (bHitsQueryCoverage < aHitsQueryCoverage)
        else false

/-- The ranking order as the spec states it: compare `evalueProduct`
ascending; tie → `meanPercentIdentity` descending; tie →
`|relativeLengthDiscrepancy|` ascending; tie → `hitsQueryCoverage`
descending; otherwise equal (neither is better). -/
def specBetterThan (G : AssemblyGraph) (a b : QueryPath) : Bool :=
  if a.getEvalueProduct G ≠ b.getEvalueProduct G then
    SciNot.lt (a.getEvalueProduct G) (b.getEvalueProduct G)
  else if a.getMeanHitPercIdentity ≠ b.getMeanHitPercIdentity then
    decide (b.getMeanHitPercIdentity < a.getMeanHitPercIdentity)
  else if |a.getRelativeLengthDiscrepancy G| ≠ |b.getRelativeLengthDiscrepancy G| then
    decide (|a.getRelativeLengthDiscrepancy G| < |b.getRelativeLengthDiscrepancy G|)
  else if a.getHitsQueryCoverage ≠ b.getHitsQueryCoverage then
    decide (b.getHitsQueryCoverage < a.getHitsQueryCoverage)
  else false

/-- The state invariant of the admission fold: the `previousHit` register is
the last admitted hit, and the admitted query starts are strictly
increasing. -/
def AdmInv (st : Option Hit × List Hit) : Prop :=
  st.1 = st.2.getLast? ∧ List.Chain' (· < ·) (st.2.map Hit.queryStart)

/-- The nodes reached by following a sequence of edges in the traversal
direction. -/
def nodesOf (G : AssemblyGraph) (forward : Bool) (es : List Nat) : List Nat :=
  es.map fun e => nextNodeOf forward (G.edge e)

/-- One hop of the traversal: edge `b` continues edge `a` when `b` is among
the next edges at the node `a` leads to. -/
def stepEdge (G : AssemblyGraph) (forward : Bool) (a b : Nat) : Prop :=
  b ∈ findNextEdgesInPath G (nextNodeOf forward (G.edge a)) forward

/-- A directed edge path that returns to the traversal's origin before
reaching the target: consecutive edges are linked, the last reached node is
the origin, and every earlier reached node is neither the origin, nor the
target, nor (when reverse complements are included) a node whose reverse
complement is the target. -/
def ReturnsToOrigin (G : AssemblyGraph) (forward : Bool) (origin target : Nat)
    (includeReverseComplement : Bool) (es : List Nat) : Prop :=
  es ≠ [] ∧
  List.Chain' (stepEdge G forward) es ∧
  (nodesOf G forward es).getLast? = some origin ∧
  ∀ n ∈ (nodesOf G forward es).dropLast,
    n ≠ origin ∧ n ≠ target ∧ (includeReverseComplement = true → (G.node n).rc ≠ target)

instance (G : AssemblyGraph) (forward : Bool) : DecidableRel (stepEdge G forward) :=
  fun a b => inferInstanceAs
    (Decidable (b ∈ findNextEdgesInPath G (nextNodeOf forward (G.edge a)) forward))

instance (G : AssemblyGraph) (forward : Bool) (origin target : Nat)
    (includeReverseComplement : Bool) (es : List Nat) :
    Decidable (ReturnsToOrigin G forward origin target includeReverseComplement es) :=
  inferInstanceAs (Decidable (es ≠ [] ∧
    List.Chain' (stepEdge G forward) es ∧
    (nodesOf G forward es).getLast? = some origin ∧
    ∀ n ∈ (nodesOf G forward es).dropLast,
      n ≠ origin ∧ n ≠ target ∧ (includeReverseComplement = true → (G.node n).rc ≠ target)))

/-! Concrete instances used to exercise the theorems below. -/

/-- A node with a loaded sequence. -/
def exNode : DeBruijnNode := ⟨"5+", true, ['A', 'C', 'G', 'T'], 4, 0, []⟩

/-- Overlap-resolver example: node 0 ends with `AC`, node 1 starts with
`AC`, so the unique exact overlap in range is 2. -/
def ovG : AssemblyGraph :=
  ⟨[⟨"1+", true, ['G', 'A', 'C'], 3, 0, []⟩,
    ⟨"2+", true, ['A', 'C', 'G'], 3, 1, []⟩],
   [⟨0, 1, 0, 0⟩]⟩

/-- The edge of `ovG` from node 0 to node 1. -/
def ovE : DeBruijnEdge := ⟨0, 1, 0, 0⟩

/-- Reachability example: origin node 0, node 1, target node 2, with the
cycle 0 → 1 → 0 (edges 0 and 1) and the target unreachable. -/
def loopG : AssemblyGraph :=
  ⟨[⟨"O+", true, [], 0, 0, [0, 1]⟩,
    ⟨"A+", true, [], 0, 1, [0, 1]⟩,
    ⟨"T+", true, [], 0, 2, []⟩],
   [⟨0, 1, 0, 0⟩, ⟨1, 0, 1, 0⟩]⟩

/-- Path-tracer example: the simple 3-node cycle 0 → 1 → 2 → 0. -/
def cycG : AssemblyGraph :=
  ⟨[⟨"A+", true, [], 0, 0, [0, 2]⟩,
    ⟨"B+", true, [], 0, 1, [0, 1]⟩,
    ⟨"C+", true, [], 0, 2, [1, 2]⟩],
   [⟨0, 1, 0, 0⟩, ⟨1, 2, 1, 0⟩, ⟨2, 0, 2, 0⟩]⟩

/-- Positivity example: nodes 0 = `1+`, 1 = `1-`, 2 = `2-`, 3 = `2+` with
reverse-complement pairing 0↔1 and 2↔3; edge 0 goes `1+` → `2-` (mixed
strands) and edge 1 is its reverse complement `2+` → `1-`. -/
def posG : AssemblyGraph :=
  ⟨[⟨"1+", true, [], 0, 1, [0]⟩,
    ⟨"1-", false, [], 0, 0, [1]⟩,
    ⟨"2-", false, [], 0, 3, [0]⟩,
    ⟨"2+", true, [], 0, 2, [1]⟩],
   [⟨0, 2, 1, 0⟩, ⟨3, 1, 0, 0⟩]⟩

/-- A path visiting node 0, then node 1, then node 0 again (a legitimate
two-edge loop), clipped to start at base 5 of its first node. -/
def clipPath : Path := ⟨[0, 1, 0], [0, 1], 5, 100⟩

/-- A hit on node 0 that starts before `clipPath`'s start position. -/
def clipHit : Hit := ⟨0, 2, 3, 1, 20, 0, 0, ⟨1, 0⟩⟩

/-- The query holding `clipHit`. -/
def clipQuery : Query := ⟨[clipHit], 100, SequenceType.nucleotide⟩

/-- A two-node path for the order-filter example. -/
def twoNodePath : Path := ⟨[0, 1], [0], 1, 50⟩

/-- A hit on the first node of `twoNodePath` with query start 10. -/
def orderHit1 : Hit := ⟨0, 5, 6, 10, 12, 0, 0, ⟨1, 0⟩⟩

/-- A hit on the second node of `twoNodePath` whose query start does not
exceed `orderHit1`'s. -/
def orderHit2 : Hit := ⟨1, 1, 2, 10, 11, 0, 0, ⟨1, 0⟩⟩

/-- The query holding the two order-filter hits. -/
def orderQuery : Query := ⟨[orderHit1, orderHit2], 100, SequenceType.nucleotide⟩

/-- A one-node graph for the scorer examples. -/
def scoreG : AssemblyGraph := ⟨[⟨"1+", true, [], 100, 0, []⟩], []⟩

/-- The whole-node one-node path of `scoreG`. -/
def scorePath : Path := ⟨[0], [], 1, 100⟩

/-- A strong hit (e-value 1e-50). -/
def strongHit : Hit := ⟨0, 1, 50, 1, 50, 90, 50, ⟨1, -50⟩⟩

/-- The same hit with a weaker e-value (1e-10). -/
def weakHit : Hit := ⟨0, 1, 50, 1, 50, 90, 50, ⟨1, -10⟩⟩

/-- Query path holding only `strongHit`. -/
def strongQP : QueryPath := ⟨scorePath, ⟨[strongHit], 50, SequenceType.nucleotide⟩, [strongHit]⟩

/-- Query path holding only `weakHit`; identical to `strongQP` except for
the hit's e-value. -/
def weakQP : QueryPath := ⟨scorePath, ⟨[weakHit], 50, SequenceType.nucleotide⟩, [weakHit]⟩

/-- Hit-overlap example graph: node 0 of length 100, node 1 of length 50,
connected by an edge with overlap 10. -/
def hitOvG : AssemblyGraph :=
  ⟨[⟨"1+", true, [], 100, 0, [0]⟩, ⟨"2+", true, [], 50, 1, [0]⟩],
   [⟨0, 1, 0, 10⟩]⟩

/-- A hit on node 0 of `hitOvG` spanning bases 81-100. -/
def hitOv1 : Hit := ⟨0, 81, 100, 1, 20, 0, 0, ⟨1, 0⟩⟩

/-- A hit on node 1 of `hitOvG` spanning bases 1-30. -/
def hitOv2 : Hit := ⟨1, 1, 30, 21, 50, 0, 0, ⟨1, 0⟩⟩

/-- A query path with an empty admitted hit chain. -/
def emptyQP : QueryPath := ⟨⟨[0], [], 1, 1⟩, ⟨[], 10, SequenceType.nucleotide⟩, []⟩

/-- A single-hit query path whose hit has a normalized e-value 3e-20. -/
def singleQP : QueryPath :=
  ⟨scorePath, ⟨[⟨0, 1, 50, 1, 50, 90, 50, ⟨3, -20⟩⟩], 50, SequenceType.nucleotide⟩,
   [⟨0, 1, 50, 1, 50, 90, 50, ⟨3, -20⟩⟩]⟩

/-! Helper lemmas. -/

theorem SciNot.log_eq_zero_of_normalized {c : Rat} (h1 : 1 ≤ c) (h10 : c < 10) :
    Int.log 10 c = 0 := by
  have h0 : (0 : Rat) < c := by linarith
  have ha := Int.zpow_log_le_self (b := 10) (by norm_num) h0
  have hb := Int.lt_zpow_succ_log_self (b := 10) (by norm_num) c
  set L := Int.log 10 c with hL
  rcases lt_trichotomy L 0 with h | h | h
  · exfalso
    have hle : L + 1 ≤ 0 := by omega
    have : ((10 : Nat) : Rat) ^ (L + 1) ≤ 1 := zpow_le_one_of_nonpos₀ (by norm_num) hle
    linarith
  · exact h
  · exfalso
    have h1' : (1 : Int) ≤ L := by omega
    have : ((10 : Nat) : Rat) ^ (1 : Int) ≤ ((10 : Nat) : Rat) ^ L :=
      zpow_le_zpow_right₀ (by norm_num) h1'
    have : (10 : Rat) ≤ c := by
      have := le_trans this ha
      simpa using this
    linarith

theorem SciNot.make_of_normalized {c : Rat} (e : Int) (h1 : 1 ≤ c) (h10 : c < 10) :
    SciNot.make c e = ⟨c, e⟩ := by
  unfold SciNot.make
  rw [if_pos (by linarith : (0 : Rat) < c), SciNot.log_eq_zero_of_normalized h1 h10]
  norm_num

theorem evalueProduct_of_single (G : AssemblyGraph) (qp : QueryPath) (h : Hit)
    (hh : qp.hits = [h]) :
    qp.getEvalueProduct G = SciNot.make h.eValue.coefficient h.eValue.exponent := by
  unfold QueryPath.getEvalueProduct
  rw [hh]
  simp [List.enum]

/-! Claim theorems. -/

/-- Claim C10: `getBaseAt` is total: for an index inside the sequence it
returns the base at that index, and for any index outside it returns the
NUL character instead of failing. -/
theorem getBaseAt_total (n : DeBruijnNode) (i : Int) :
    (∀ hi : i.toNat < n.seq.length, 0 ≤ i → n.getBaseAt i = n.seq.get ⟨i.toNat, hi⟩) ∧
    ((i < 0 ∨ (n.seq.length : Int) ≤ i) → n.getBaseAt i = Char.ofNat 0) := by
  constructor
  · intro hi h0
    have hcond : 0 ≤ i ∧ i < (n.seq.length : Int) := ⟨h0, by omega⟩
    rw [DeBruijnNode.getBaseAt, if_pos hcond, List.getD_eq_getElem _ _ hi]
    simp
  · intro hout
    have hcond : ¬(0 ≤ i ∧ i < (n.seq.length : Int)) := by omega
    rw [DeBruijnNode.getBaseAt, if_neg hcond]

theorem getBaseAt_total_witness :
    exNode.getBaseAt 2 = exNode.seq.get ⟨(2 : Int).toNat, by decide⟩ ∧
    exNode.getBaseAt 9 = Char.ofNat 0 :=
  ⟨(getBaseAt_total exNode 2).1 (by decide) (by decide),
   (getBaseAt_total exNode 9).2 (by decide)⟩

/-- Claim C7 counterexample: on a query path with zero admitted hits,
`getHitQueryLength` (and therefore `getRelativePathLength` and
`getAbsolutePathLengthDifference`) reads the front/back of the empty hit
vector — undefined behaviour, modelled as `none` — rather than returning a
defined value. -/
theorem emptyHits_hitQueryLength_undefined :
    emptyQP.hits = [] ∧ emptyQP.getHitQueryLength = none ∧
    emptyQP.getRelativePathLength scoreG = none ∧
    emptyQP.getAbsolutePathLengthDifference scoreG = none :=
  ⟨rfl, rfl, rfl, rfl⟩

/-- Claim C7 (amended): with zero admitted hits, `getMeanHitPercIdentity`
and `getPathQueryCoverage` return 0 and `getRelativeLengthDiscrepancy`
returns the extreme sentinel `DBL_MAX`; but `getHitQueryLength`,
`getRelativePathLength` and `getAbsolutePathLengthDifference` access the
first/last element of the empty hit chain (undefined behaviour, modelled as
`none`). -/
theorem emptyHits_sentinels (G : AssemblyGraph) (qp : QueryPath) (h : qp.hits = []) :
    qp.getMeanHitPercIdentity = 0 ∧ qp.getPathQueryCoverage = 0 ∧
    qp.getRelativeLengthDiscrepancy G = doubleMax ∧
    qp.getHitQueryLength = none ∧ qp.getRelativePathLength G = none ∧
    qp.getAbsolutePathLengthDifference G = none := by
  refine ⟨?_, ?_, ?_, ?_, ?_, ?_⟩ <;>
    simp [QueryPath.getMeanHitPercIdentity, QueryPath.getPathQueryCoverage,
      QueryPath.getRelativeLengthDiscrepancy, QueryPath.getHitQueryLength,
      QueryPath.getRelativePathLength, QueryPath.getAbsolutePathLengthDifference, h]

theorem emptyHits_sentinels_witness :
    emptyQP.getMeanHitPercIdentity = 0 ∧ emptyQP.getPathQueryCoverage = 0 ∧
    emptyQP.getRelativeLengthDiscrepancy scoreG = doubleMax ∧
    emptyQP.getHitQueryLength = none ∧ emptyQP.getRelativePathLength scoreG = none ∧
    emptyQP.getAbsolutePathLengthDifference scoreG = none :=
  emptyHits_sentinels scoreG emptyQP rfl

/-- Claim C6: `getHitOverlap` compares node spans directly for same-node
hits, translates the second hit's span by `firstHitNodeLength −
connectingEdgeOverlap` for edge-adjacent hits and takes min of ends minus
max of starts, returns 0 for distinct non-adjacent nodes, and always
returns a non-negative value (negative differences clamp to 0) in every
case. -/
theorem getHitOverlap_cases (G : AssemblyGraph) (hit1 hit2 : Hit) :
    (hit1.node = hit2.node →
      getHitOverlap G hit1 hit2 =
        max 0 (min hit1.nodeEnd hit2.nodeEnd -
          max (hit1.nodeStart - 1) (hit2.nodeStart - 1))) ∧
    (hit1.node ≠ hit2.node → ∀ edge, G.lookupEdge hit1.node hit2.node = some edge →
      getHitOverlap G hit1 hit2 =
        max 0 (min hit1.nodeEnd (hit2.nodeEnd + ((G.node hit1.node).length - edge.overlap)) -
          max hit1.nodeStart (hit2.nodeStart + ((G.node hit1.node).length - edge.overlap)))) ∧
    (hit1.node ≠ hit2.node → G.lookupEdge hit1.node hit2.node = none →
      getHitOverlap G hit1 hit2 = 0) ∧
    0 ≤ getHitOverlap G hit1 hit2 := by
  refine ⟨?_, ?_, ?_, ?_⟩
  · intro hsame
    rw [getHitOverlap, if_pos hsame]
    dsimp only
    split <;> omega
  · intro hne edge hlk
    rw [getHitOverlap, if_neg hne, hlk]
    dsimp only
    split <;> omega
  · intro hne hlk
    rw [getHitOverlap, if_neg hne, hlk]
  · rw [getHitOverlap]
    split
    · dsimp only
      split <;> omega
    · rcases hlk : G.lookupEdge hit1.node hit2.node with _ | edge
      · dsimp only
        omega
      · dsimp only
        split <;> omega

theorem getHitOverlap_cases_witness :
    getHitOverlap hitOvG hitOv1 hitOv2 =
      max 0 (min hitOv1.nodeEnd (hitOv2.nodeEnd + (((hitOvG.node hitOv1.node).length -
        (DeBruijnEdge.mk 0 1 0 10).overlap))) -
        max hitOv1.nodeStart (hitOv2.nodeStart + (((hitOvG.node hitOv1.node).length -
        (DeBruijnEdge.mk 0 1 0 10).overlap)))) ∧
    0 ≤ getHitOverlap hitOvG hitOv1 hitOv2 :=
  ⟨(getHitOverlap_cases hitOvG hitOv1 hitOv2).2.1 (by decide) ⟨0, 1, 0, 10⟩ (by decide),
   (getHitOverlap_cases hitOvG hitOv1 hitOv2).2.2.2⟩

/-- Claim C8: the e-value product of a query path whose admitted chain is a
single hit equals that hit's raw e-value (no overlap discount is applied,
there being no previous or next neighbour); the hit's stored e-value is
assumed normalized (coefficient in [1, 10)), which the `SciNot`
representation invariant guarantees. -/
theorem evalueProduct_single_hit (G : AssemblyGraph) (qp : QueryPath) (h : Hit)
    (hh : qp.hits = [h]) (h1 : 1 ≤ h.eValue.coefficient)
    (h10 : h.eValue.coefficient < 10) :
    qp.getEvalueProduct G = h.eValue := by
  rw [evalueProduct_of_single G qp h hh, SciNot.make_of_normalized _ h1 h10]

theorem evalueProduct_single_hit_witness :
    singleQP.getEvalueProduct scoreG = SciNot.mk 3 (-20) :=
  evalueProduct_single_hit scoreG singleQP ⟨0, 1, 50, 1, 50, 90, 50, ⟨3, -20⟩⟩
    rfl (by norm_num) (by norm_num)

/-- Claim C5: the better-than ordering compares `evalueProduct` ascending;
on a tie `meanPercentIdentity` descending; then `|relativeLengthDiscrepancy|`
ascending; then `hitsQueryCoverage` descending; and declares the paths equal
(neither better) otherwise.  In particular, with e-value products 1e-50 and
1e-10 and all else equal, the first path compares strictly better. -/
theorem betterThan_ordering :
    (∀ (G : AssemblyGraph) (a b : QueryPath), ltQueryPath G a b = specBetterThan G a b) ∧
    (∀ (G : AssemblyGraph) (a b : QueryPath),
      a.getEvalueProduct G = b.getEvalueProduct G →
      a.getMeanHitPercIdentity = b.getMeanHitPercIdentity →
      |a.getRelativeLengthDiscrepancy G| = |b.getRelativeLengthDiscrepancy G| →
      a.getHitsQueryCoverage = b.getHitsQueryCoverage →
      ltQueryPath G a b = false) ∧
    (ltQueryPath scoreG strongQP weakQP = true ∧
      ltQueryPath scoreG weakQP strongQP = false) := by
  have hA : strongQP.getEvalueProduct scoreG = ⟨1, -50⟩ := by
    rw [evalueProduct_of_single scoreG strongQP strongHit rfl]
    exact SciNot.make_of_normalized _ (by norm_num [strongHit]) (by norm_num [strongHit])
  have hB : weakQP.getEvalueProduct scoreG = ⟨1, -10⟩ := by
    rw [evalueProduct_of_single scoreG weakQP weakHit rfl]
    exact SciNot.make_of_normalized _ (by norm_num [weakHit]) (by norm_num [weakHit])
  refine ⟨fun G a b => rfl, ?_, ?_, ?_⟩
  · intro G a b h1 h2 h3 h4
    simp [ltQueryPath, h1, h2, h3, h4]
  · simp [ltQueryPath, hA, hB, SciNot.lt]
  · simp [ltQueryPath, hA, hB, SciNot.lt]

theorem betterThan_ordering_witness :
    ltQueryPath scoreG strongQP strongQP = false :=
  betterThan_ordering.2.1 scoreG strongQP strongQP rfl rfl rfl rfl

/-- Claim C9: positivity picks exactly one canonical representative out of
an edge/reverse-complement pair.  Hypotheses state the §3 invariant for the
pair: the reverse complement's reverse complement is the edge itself, its
endpoints are the strand-flipped twins of the edge's endpoints (in swapped
order), strand flipping inverts the sign, reverse complementation is
involutive at the relevant node, distinct edges have distinct endpoint
pairs (the graph keys its edge map by the ordered pair), and distinct nodes
have distinct names.  Conclusion: an edge that is its own reverse
complement is positive, and otherwise exactly one of the edge and its
reverse complement is positive. -/
theorem isPositiveEdge_canonical (G : AssemblyGraph) (eid : Nat)
    (hrc : (G.edge (G.edge eid).rc).rc = eid)
    (hstart : (G.edge (G.edge eid).rc).startingNode = (G.node (G.edge eid).endingNode).rc)
    (hend : (G.edge (G.edge eid).rc).endingNode = (G.node (G.edge eid).startingNode).rc)
    (hflipS : (G.node (G.node (G.edge eid).startingNode).rc).positive
        = !(G.node (G.edge eid).startingNode).positive)
    (hflipE : (G.node (G.node (G.edge eid).endingNode).rc).positive
        = !(G.node (G.edge eid).endingNode).positive)
    (hinv : (G.node (G.node (G.edge eid).endingNode).rc).rc = (G.edge eid).endingNode)
    (hpair : (G.edge eid).rc ≠ eid →
      ((G.edge eid).startingNode, (G.edge eid).endingNode)
        ≠ ((G.edge (G.edge eid).rc).startingNode, (G.edge (G.edge eid).rc).endingNode))
    (hnames : (G.edge eid).startingNode ≠ (G.edge (G.edge eid).rc).startingNode →
      (G.node (G.edge eid).startingNode).name ≠ (G.node (G.edge (G.edge eid).rc).startingNode).name) :
    ((G.edge eid).rc = eid → isPositiveEdge G eid = true) ∧
    ((G.edge eid).rc ≠ eid →
      isPositiveEdge G eid = !isPositiveEdge G (G.edge eid).rc) := by
  constructor
  · intro hown
    rw [hown] at hstart
    rw [isPositiveEdge]
    simp only [DeBruijnNode.isPositiveNode, DeBruijnNode.isNegativeNode, hown, hstart, hflipE]
    cases hpe : (G.node (G.edge eid).endingNode).positive <;> simp
  · intro hdiff
    have hsne : (G.edge eid).startingNode ≠ (G.edge (G.edge eid).rc).startingNode := by
      intro hs
      apply hpair hdiff
      have hends : (G.edge eid).endingNode = (G.edge (G.edge eid).rc).endingNode := by
        rw [hend, ← hinv]
        rw [hstart] at hs
        rw [← hs]
      rw [hs, hends]
    have hnm := hnames hsne
    rw [hstart] at hnm
    have hd2 : eid ≠ (G.edge eid).rc := fun h => hdiff h.symm
    rw [isPositiveEdge, isPositiveEdge]
    simp only [DeBruijnNode.isPositiveNode, DeBruijnNode.isNegativeNode, hstart, hend,
      hflipS, hflipE, hrc]
    rcases lt_trichotomy (G.node (G.edge eid).startingNode).name
        (G.node (G.node (G.edge eid).endingNode).rc).name with hlt | heq | hgt
    · cases hps : (G.node (G.edge eid).startingNode).positive <;>
        cases hpe : (G.node (G.edge eid).endingNode).positive <;>
        simp [hdiff, hd2, hlt, lt_asymm hlt]
    · exact absurd heq hnm
    · cases hps : (G.node (G.edge eid).startingNode).positive <;>
        cases hpe : (G.node (G.edge eid).endingNode).positive <;>
        simp [hdiff, hd2, hgt, lt_asymm hgt]

theorem isPositiveEdge_canonical_witness :
    isPositiveEdge posG 0 = !isPositiveEdge posG (posG.edge 0).rc :=
  (isPositiveEdge_canonical posG 0 (by decide) (by decide) (by decide) (by decide)
    (by decide) (by decide) (fun _ => by decide) (fun _ => by decide)).2 (by decide)

theorem mem_insertHitByQueryStart {x h : Hit} {l : List Hit} :
    x ∈ insertHitByQueryStart h l ↔ x = h ∨ x ∈ l := by
  induction l with
  | nil => simp [insertHitByQueryStart]
  | cons y ys ih =>
      rw [insertHitByQueryStart]
      split
      · simp
      · simp [ih]
        tauto

theorem mem_sortHitsByQueryStart {x : Hit} {l : List Hit} :
    x ∈ sortHitsByQueryStart l ↔ x ∈ l := by
  induction l with
  | nil => simp [sortHitsByQueryStart]
  | cons y ys ih =>
      rw [sortHitsByQueryStart, List.foldr_cons, mem_insertHitByQueryStart]
      rw [sortHitsByQueryStart] at ih
      simp [ih]

theorem admitHit_inv {path : Path} {i : Nat} {st : Option Hit × List Hit} {hit : Hit}
    (h : AdmInv st) : AdmInv (admitHit path i st hit) := by
  obtain ⟨h1, h2⟩ := h
  rw [admitHit]
  split
  · rcases hst : st.1 with _ | p
    · dsimp only
      have hnil : st.2 = [] := by
        rw [hst] at h1
        exact (List.getLast?_eq_none_iff.mp h1.symm)
      refine ⟨?_, ?_⟩ <;> simp [hnil, AdmInv]
    · dsimp only
      rw [hst] at h1
      split
      case isTrue hlt =>
        refine ⟨by simp, ?_⟩
        rw [List.map_append, List.chain'_append]
        refine ⟨h2, List.chain'_singleton _, ?_⟩
        intro x hx y hy
        simp only [List.map_cons, List.map_nil, List.head?_cons, Option.mem_def,
          Option.some.injEq] at hy
        rw [List.getLast?_map, ← h1] at hx
        simp only [Option.map_some', Option.mem_def, Option.some.injEq] at hx
        subst hx
        subst hy
        exact hlt
      case isFalse => exact ⟨hst.trans h1, h2⟩
  · exact ⟨h1, h2⟩

theorem foldl_admitHit_inv {path : Path} {i : Nat} :
    ∀ (hits : List Hit) (st : Option Hit × List Hit), AdmInv st →
      AdmInv (hits.foldl (admitHit path i) st)
  | [], st, h => h
  | x :: xs, st, h => foldl_admitHit_inv xs (admitHit path i st x) (admitHit_inv h)

theorem foldl_constructHitsStep_inv (path : Path) (query : Query) :
    ∀ (l : List (Nat × Nat)) (st : Option Hit × List Hit), AdmInv st →
      AdmInv (l.foldl (constructHitsStep path query) st)
  | [], _, h => h
  | p :: ps, st, h =>
      foldl_constructHitsStep_inv path query ps _ (foldl_admitHit_inv _ st h)

theorem admitHit_snd_cases (path : Path) (i : Nat) (st : Option Hit × List Hit) (hit : Hit) :
    (admitHit path i st hit).2 = st.2 ∨
      (hitWithinPath path i hit = true ∧ (admitHit path i st hit).2 = st.2 ++ [hit]) := by
  rw [admitHit]
  split
  · rcases st.1 with _ | p
    · right; exact ⟨by assumption, rfl⟩
    · dsimp only
      split
      · right; exact ⟨by assumption, rfl⟩
      · left; rfl
  · left; rfl

theorem foldl_admitHit_mem {path : Path} {i : Nat} :
    ∀ (hits : List Hit) (st : Option Hit × List Hit) (x : Hit),
      x ∈ (hits.foldl (admitHit path i) st).2 →
      x ∈ st.2 ∨ (x ∈ hits ∧ hitWithinPath path i x = true)
  | [], st, x, hx => Or.inl hx
  | h :: hs, st, x, hx => by
      rcases foldl_admitHit_mem hs (admitHit path i st h) x hx with hin | ⟨hmem, hcl⟩
      · rcases admitHit_snd_cases path i st h with hc | ⟨hcl, hc⟩
        · rw [hc] at hin; exact Or.inl hin
        · rw [hc] at hin
          rcases List.mem_append.mp hin with hin | hin
          · exact Or.inl hin
          · simp at hin
            subst hin
            exact Or.inr ⟨List.mem_cons_self _ _, hcl⟩
      · exact Or.inr ⟨List.mem_cons_of_mem _ hmem, hcl⟩

theorem constructHitsStep_mem {path : Path} {query : Query} {st : Option Hit × List Hit}
    {p : Nat × Nat} {x : Hit} (hx : x ∈ (constructHitsStep path query st p).2) :
    x ∈ st.2 ∨ (x.node = p.2 ∧ hitWithinPath path p.1 x = true) := by
  rw [constructHitsStep] at hx
  rcases foldl_admitHit_mem _ st x hx with hin | ⟨hmem, hcl⟩
  · exact Or.inl hin
  · rw [mem_sortHitsByQueryStart] at hmem
    have := List.mem_filter.mp hmem
    refine Or.inr ⟨by simpa using this.2, hcl⟩

theorem foldl_constructHitsStep_mem (path : Path) (query : Query) :
    ∀ (l : List (Nat × Nat)) (st : Option Hit × List Hit) (x : Hit),
      x ∈ (l.foldl (constructHitsStep path query) st).2 →
      x ∈ st.2 ∨ ∃ p ∈ l, x.node = p.2 ∧ hitWithinPath path p.1 x = true
  | [], st, x, hx => Or.inl hx
  | p :: ps, st, x, hx => by
      rcases foldl_constructHitsStep_mem path query ps _ x hx with hin | ⟨q, hq, hx2⟩
      · rcases constructHitsStep_mem hin with hin | hgood
        · exact Or.inl hin
        · exact Or.inr ⟨p, List.mem_cons_self _ _, hgood⟩
      · exact Or.inr ⟨q, List.mem_cons_of_mem _ hq, hx2⟩

theorem constructHits_mem {path : Path} {query : Query} {x : Hit}
    (hx : x ∈ constructHits path query) :
    ∃ i, path.nodes[i]? = some x.node ∧ hitWithinPath path i x = true := by
  rw [constructHits] at hx
  rcases foldl_constructHitsStep_mem path query _ _ x hx with hin | ⟨p, hp, hnode, hcl⟩
  · simp at hin
  · refine ⟨p.1, ?_, hcl⟩
    rw [hnode]
    exact List.mem_enum_iff_getElem?.mp hp

/-- Claim C4 counterexample: in the path [node 0, node 1, node 0] the first
node recurs at the last position, so a hit on the path's first node that
starts before the start clip position is still admitted (collected at the
last position, where only the end bound is checked). -/
theorem clipHit_admitted_outside_bounds :
    clipPath.nodes.head? = some clipHit.node ∧
    clipHit.nodeStart < clipPath.startPosition ∧
    clipHit ∈ constructHits clipPath clipQuery :=
  ⟨rfl, by decide, by decide⟩

/-- Claim C4 (amended): the admitted hit chain is strictly increasing in
`queryStart`, and the boundary clipping bounds are enforced positionally:
when the path's first node does not recur later in the path, every admitted
hit on it respects the start bound, and when the last node occurs only at
the last position, every admitted hit on it respects the end bound (a hit
on a first/last node that recurs at an interior position can be admitted at
the other occurrence without the bound check).  In the two-node path with
one hit per node and the second hit's query start not exceeding the first's,
the second hit is excluded. -/
theorem constructHits_order_and_bounds :
    (∀ (path : Path) (query : Query),
      List.Chain' (· < ·) ((constructHits path query).map Hit.queryStart)) ∧
    (∀ (path : Path) (query : Query) (h0 : Nat), path.nodes.head? = some h0 →
      h0 ∉ path.nodes.tail →
      ∀ hit ∈ constructHits path query, hit.node = h0 →
        path.startPosition ≤ hit.nodeStart) ∧
    (∀ (path : Path) (query : Query) (lN : Nat), path.nodes.getLast? = some lN →
      lN ∉ path.nodes.dropLast →
      ∀ hit ∈ constructHits path query, hit.node = lN →
        hit.nodeEnd ≤ path.endPosition) ∧
    constructHits twoNodePath orderQuery = [orderHit1] := by
  refine ⟨?_, ?_, ?_, by decide⟩
  · intro path query
    rw [constructHits]
    exact (foldl_constructHitsStep_inv path query path.nodes.enum (none, [])
      ⟨rfl, List.chain'_nil⟩).2
  · intro path query h0 hhead honly hit hmem hnode
    obtain ⟨i, hget, hwithin⟩ := constructHits_mem hmem
    rw [hnode] at hget
    have hi0 : i = 0 := by
      by_contra hne
      obtain ⟨j, rfl⟩ := Nat.exists_eq_succ_of_ne_zero hne
      obtain ⟨t, ht⟩ : ∃ t, path.nodes = h0 :: t := by
        cases hn : path.nodes with
        | nil => rw [hn] at hhead; simp at hhead
        | cons a t =>
            rw [hn] at hhead
            simp at hhead
            exact ⟨t, by rw [hhead]⟩
      rw [ht] at hget
      simp at hget
      apply honly
      rw [ht]
      simp only [List.tail_cons]
      exact List.getElem?_mem hget
    rw [hi0] at hwithin
    rw [hitWithinPath] at hwithin
    simp at hwithin
    exact hwithin.1
  · intro path query lN hlast honly hit hmem hnode
    obtain ⟨i, hget, hwithin⟩ := constructHits_mem hmem
    rw [hnode] at hget
    have hilen : i < path.nodes.length := by
      by_contra hge
      rw [List.getElem?_eq_none (by omega)] at hget
      exact Option.noConfusion hget
    have hi0 : i = path.nodes.length - 1 := by
      by_contra hne
      have hlt : i < path.nodes.length - 1 := by omega
      apply honly
      have : path.nodes.dropLast[i]? = some lN := by
        rw [List.dropLast_eq_take, List.getElem?_take, if_pos hlt]
        exact hget
      exact List.getElem?_mem this
    rw [hi0] at hwithin
    rw [hitWithinPath] at hwithin
    simp at hwithin
    exact hwithin.2

theorem constructHits_order_and_bounds_witness :
    List.Chain' (· < ·) ((constructHits twoNodePath orderQuery).map Hit.queryStart) ∧
    twoNodePath.startPosition ≤ orderHit1.nodeStart :=
  ⟨constructHits_order_and_bounds.1 twoNodePath orderQuery,
   constructHits_order_and_bounds.2.1 twoNodePath orderQuery 0 rfl (by decide)
     orderHit1 (by decide) rfl⟩

theorem getElem?_eq_some_getD (l : List Char) (m : Nat) (hm : m < l.length) :
    l[m]? = some (l.getD m (Char.ofNat 0)) := by
  rw [List.getD_eq_getElem?_getD, List.getElem?_eq_getElem hm]
  rfl

/-- A reduced residue: for `-m ≤ a < m`, `a % m` is `a` when nonnegative and
`a + m` otherwise. -/
theorem emod_small (a m : Int) (hm : 0 < m) (h1 : -m ≤ a) (h2 : a < m) :
    a % m = if 0 ≤ a then a else a + m := by
  split
  case isTrue h => exact Int.emod_eq_of_lt h h2
  case isFalse h =>
    have hself : (a + m * 1) % m = a % m := Int.add_mul_emod_self_left a m 1
    rw [mul_one] at hself
    rw [← hself]
    exact Int.emod_eq_of_lt (by omega) (by omega)

/-- `testExactOverlap` succeeds exactly when the last `k` bases of the
starting node's sequence equal the first `k` bases of the ending node's
sequence (byte for byte), provided the stored lengths agree with the
sequences and `k` does not exceed the shorter node. -/
theorem testExactOverlap_iff (G : AssemblyGraph) (e : DeBruijnEdge) (k : Int)
    (hs : (G.node e.startingNode).length = ((G.node e.startingNode).seq.length : Int))
    (ht : (G.node e.endingNode).length = ((G.node e.endingNode).seq.length : Int))
    (hk : k ≤ min (G.node e.startingNode).length (G.node e.endingNode).length) :
    testExactOverlap G e k = true ↔
      (G.node e.startingNode).seq.drop ((G.node e.startingNode).seq.length - k.toNat) =
        (G.node e.endingNode).seq.take k.toNat := by
  have hkS : k.toNat ≤ (G.node e.startingNode).seq.length := by omega
  have hkT : k.toNat ≤ (G.node e.endingNode).seq.length := by omega
  rw [testExactOverlap]
  rw [List.all_eq_true]
  constructor
  · intro hall
    apply List.ext_getElem?
    intro n
    rw [List.getElem?_drop, List.getElem?_take]
    by_cases hn : n < k.toNat
    · rw [if_pos hn]
      have hj := hall n (List.mem_range.mpr hn)
      rw [beq_iff_eq] at hj
      have hb1 : (G.node e.startingNode).getBaseAt
          ((G.node e.startingNode).length - k + (n : Int)) =
          (G.node e.startingNode).seq.getD
            ((G.node e.startingNode).seq.length - k.toNat + n) (Char.ofNat 0) := by
        rw [DeBruijnNode.getBaseAt, if_pos ⟨by omega, by omega⟩]
        congr 1
        omega
      have hb2 : (G.node e.endingNode).getBaseAt (n : Int) =
          (G.node e.endingNode).seq.getD n (Char.ofNat 0) := by
        rw [DeBruijnNode.getBaseAt, if_pos ⟨by omega, by omega⟩]
        congr 1 <;> omega
      rw [getElem?_eq_some_getD _ _ (by omega), getElem?_eq_some_getD _ _ (by omega),
        ← hb1, ← hb2, hj]
    · rw [if_neg hn]
      exact List.getElem?_eq_none (by omega)
  · intro heq j hjmem
    rw [List.mem_range] at hjmem
    rw [beq_iff_eq]
    have h := congrArg (fun l => l[j]?) heq
    simp only at h
    rw [List.getElem?_drop, List.getElem?_take, if_pos hjmem] at h
    rw [getElem?_eq_some_getD _ _ (by omega), getElem?_eq_some_getD _ _ (by omega)] at h
    have hb1 : (G.node e.startingNode).getBaseAt
        ((G.node e.startingNode).length - k + (j : Int)) =
        (G.node e.startingNode).seq.getD
          ((G.node e.startingNode).seq.length - k.toNat + j) (Char.ofNat 0) := by
      rw [DeBruijnNode.getBaseAt, if_pos ⟨by omega, by omega⟩]
      congr 1
      omega
    have hb2 : (G.node e.endingNode).getBaseAt (j : Int) =
        (G.node e.endingNode).seq.getD j (Char.ofNat 0) := by
      rw [DeBruijnNode.getBaseAt, if_pos ⟨by omega, by omega⟩]
      congr 1 <;> omega
    rw [hb1, hb2]
    exact Option.some_injective _ h

theorem overlapScan_eq_zero (G : AssemblyGraph) (e : DeBruijnEdge) (lo hi : Int)
    (hnone : ∀ k, lo ≤ k → k ≤ hi → testExactOverlap G e k = false) :
    ∀ (iters : Nat) (t : Int), lo ≤ t → t ≤ hi → overlapScan G e lo hi t iters = 0
  | 0, _, _, _ => rfl
  | iters + 1, t, hlo, hhi => by
      rw [overlapScan, hnone t hlo hhi]
      simp only [Bool.false_eq_true, if_false]
      split
      case isTrue h =>
        exact overlapScan_eq_zero G e lo hi hnone iters lo le_rfl (le_trans hlo hhi)
      case isFalse h =>
        exact overlapScan_eq_zero G e lo hi hnone iters (t + 1) (by omega) (by omega)

theorem overlapScan_finds (G : AssemblyGraph) (e : DeBruijnEdge) (lo hi : Int)
    (k : Int) (hklo : lo ≤ k) (hkhi : k ≤ hi) (hP : testExactOverlap G e k = true) :
    ∀ (iters : Nat) (t : Int), lo ≤ t → t ≤ hi →
      ((k - t) % (hi - lo + 1)).toNat < iters →
      lo ≤ overlapScan G e lo hi t iters ∧ overlapScan G e lo hi t iters ≤ hi ∧
        testExactOverlap G e (overlapScan G e lo hi t iters) = true := by
  intro iters
  induction iters with
  | zero => intro t _ _ hd; omega
  | succ n ih =>
      intro t hlo hhi hd
      rw [overlapScan]
      by_cases hPt : testExactOverlap G e t = true
      · rw [if_pos hPt]
        exact ⟨hlo, hhi, hPt⟩
      · rw [if_neg hPt]
        have hm : 0 < hi - lo + 1 := by omega
        have hne : k ≠ t := by
          intro hkt
          rw [hkt] at hP
          exact hPt hP
        have hdt : ((k - t) % (hi - lo + 1)) = if 0 ≤ k - t then k - t else k - t + (hi - lo + 1) :=
          emod_small _ _ hm (by omega) (by omega)
        by_cases hwrap : t + 1 > hi
        · rw [if_pos hwrap]
          have hth : t = hi := by omega
          refine ih lo le_rfl (by omega) ?_
          have hdl : ((k - lo) % (hi - lo + 1)) = k - lo := by
            rw [emod_small _ _ hm (by omega) (by omega)]
            rw [if_pos (by omega)]
          rw [hdl]
          rw [hth] at hdt hd
          have : k - hi < 0 := by omega
          rw [if_neg (by omega)] at hdt
          omega
        · rw [if_neg hwrap]
          refine ih (t + 1) (by omega) (by omega) ?_
          have hdt' : ((k - (t + 1)) % (hi - lo + 1)) =
              if 0 ≤ k - (t + 1) then k - (t + 1) else k - (t + 1) + (hi - lo + 1) :=
            emod_small _ _ hm (by omega) (by omega)
          rw [hdt']
          split at hdt
          · rw [if_pos (by omega)] at hdt'
            omega
          · have hklt : k < t := by omega
            rw [if_neg (by omega)] at hdt'
            omega

/-- Claim C1: `autoDetermineExactOverlap` sets the overlap to some `k` in
`[min(minCandidate, shorterNodeLen), min(maxCandidate, shorterNodeLen)]`
with the last `k` bases of the starting node equal to the first `k` bases
of the ending node (`testExactOverlap k` holds), whenever such a `k`
exists, for every value of the random starting point; if no `k` in the
range matches, or the shorter node is shorter than `minCandidate`, the
overlap is 0.  The stored node lengths are assumed consistent with the
sequences. -/
theorem autoDetermineExactOverlap_correct (G : AssemblyGraph) (e : DeBruijnEdge)
    (minA maxA : Int) (r : Nat)
    (hs : (G.node e.startingNode).length = ((G.node e.startingNode).seq.length : Int))
    (ht : (G.node e.endingNode).length = ((G.node e.endingNode).seq.length : Int)) :
    (min (G.node e.startingNode).length (G.node e.endingNode).length < minA →
      autoDetermineExactOverlap G e minA maxA r = 0) ∧
    (minA ≤ min (G.node e.startingNode).length (G.node e.endingNode).length →
      ((∃ k, min minA (min (G.node e.startingNode).length (G.node e.endingNode).length) ≤ k ∧
          k ≤ min maxA (min (G.node e.startingNode).length (G.node e.endingNode).length) ∧
          (G.node e.startingNode).seq.drop ((G.node e.startingNode).seq.length - k.toNat) =
            (G.node e.endingNode).seq.take k.toNat) →
        min minA (min (G.node e.startingNode).length (G.node e.endingNode).length) ≤
            autoDetermineExactOverlap G e minA maxA r ∧
          autoDetermineExactOverlap G e minA maxA r ≤
            min maxA (min (G.node e.startingNode).length (G.node e.endingNode).length) ∧
          testExactOverlap G e (autoDetermineExactOverlap G e minA maxA r) = true ∧
          (G.node e.startingNode).seq.drop
              ((G.node e.startingNode).seq.length - (autoDetermineExactOverlap G e minA maxA r).toNat) =
            (G.node e.endingNode).seq.take (autoDetermineExactOverlap G e minA maxA r).toNat) ∧
      ((∀ k, min minA (min (G.node e.startingNode).length (G.node e.endingNode).length) ≤ k →
          k ≤ min maxA (min (G.node e.startingNode).length (G.node e.endingNode).length) →
          (G.node e.startingNode).seq.drop ((G.node e.startingNode).seq.length - k.toNat) ≠
            (G.node e.endingNode).seq.take k.toNat) →
        autoDetermineExactOverlap G e minA maxA r = 0)) := by
  constructor
  · intro hlt
    rw [autoDetermineExactOverlap]
    dsimp only
    rw [if_pos hlt]
  · intro hge
    have hmin : min (G.node e.startingNode).length (G.node e.endingNode).length < minA ↔ False := by
      simp
      omega
    have hunf : autoDetermineExactOverlap G e minA maxA r =
        overlapScan G e
          (min (min (G.node e.startingNode).length (G.node e.endingNode).length) minA)
          (min (min (G.node e.startingNode).length (G.node e.endingNode).length) maxA)
          (min (min (G.node e.startingNode).length (G.node e.endingNode).length) minA +
            (r : Int) %
              (min (min (G.node e.startingNode).length (G.node e.endingNode).length) maxA -
                min (min (G.node e.startingNode).length (G.node e.endingNode).length) minA + 1))
          (min (min (G.node e.startingNode).length (G.node e.endingNode).length) maxA -
            min (min (G.node e.startingNode).length (G.node e.endingNode).length) minA + 1).toNat := by
      rw [autoDetermineExactOverlap]
      dsimp only
      rw [if_neg (by omega)]
    have hloeq : min (min (G.node e.startingNode).length (G.node e.endingNode).length) minA =
        min minA (min (G.node e.startingNode).length (G.node e.endingNode).length) :=
      min_comm _ _
    have hhieq : min (min (G.node e.startingNode).length (G.node e.endingNode).length) maxA =
        min maxA (min (G.node e.startingNode).length (G.node e.endingNode).length) :=
      min_comm _ _
    rw [hunf, hloeq, hhieq]
    set lo := min minA (min (G.node e.startingNode).length (G.node e.endingNode).length) with hlo
    set hi := min maxA (min (G.node e.startingNode).length (G.node e.endingNode).length) with hhi
    constructor
    · rintro ⟨k, hk1, hk2, hkdrop⟩
      have hlohi : lo ≤ hi := le_trans hk1 hk2
      have hm : 0 < hi - lo + 1 := by omega
      have hkml : k ≤ min (G.node e.startingNode).length (G.node e.endingNode).length := by
        have := min_le_right maxA (min (G.node e.startingNode).length (G.node e.endingNode).length)
        omega
      have hktest : testExactOverlap G e k = true :=
        (testExactOverlap_iff G e k hs ht hkml).mpr hkdrop
      have ht0 : lo ≤ lo + (r : Int) % (hi - lo + 1) := by
        have := Int.emod_nonneg (r : Int) (by omega : hi - lo + 1 ≠ 0)
        omega
      have ht1 : lo + (r : Int) % (hi - lo + 1) ≤ hi := by
        have := Int.emod_lt_of_pos (r : Int) hm
        omega
      have hdist : ((k - (lo + (r : Int) % (hi - lo + 1))) % (hi - lo + 1)).toNat <
          (hi - lo + 1).toNat := by
        have h1 := Int.emod_nonneg (k - (lo + (r : Int) % (hi - lo + 1))) (by omega : hi - lo + 1 ≠ 0)
        have h2 := Int.emod_lt_of_pos (k - (lo + (r : Int) % (hi - lo + 1))) hm
        omega
      obtain ⟨ha, hb, hc⟩ := overlapScan_finds G e lo hi k hk1 hk2 hktest
        (hi - lo + 1).toNat (lo + (r : Int) % (hi - lo + 1)) ht0 ht1 hdist
      refine ⟨ha, hb, hc, ?_⟩
      have hres : overlapScan G e lo hi (lo + (r : Int) % (hi - lo + 1)) (hi - lo + 1).toNat ≤
          min (G.node e.startingNode).length (G.node e.endingNode).length := by
        have := min_le_right maxA (min (G.node e.startingNode).length (G.node e.endingNode).length)
        omega
      exact (testExactOverlap_iff G e _ hs ht hres).mp hc
    · intro hnone
      by_cases hlohi : lo ≤ hi
      · have hm : 0 < hi - lo + 1 := by omega
        have ht0 : lo ≤ lo + (r : Int) % (hi - lo + 1) := by
          have := Int.emod_nonneg (r : Int) (by omega : hi - lo + 1 ≠ 0)
          omega
        have ht1 : lo + (r : Int) % (hi - lo + 1) ≤ hi := by
          have := Int.emod_lt_of_pos (r : Int) hm
          omega
        refine overlapScan_eq_zero G e lo hi ?_ _ _ ht0 ht1
        intro k hk1 hk2
        have hkml : k ≤ min (G.node e.startingNode).length (G.node e.endingNode).length := by
          have := min_le_right maxA (min (G.node e.startingNode).length (G.node e.endingNode).length)
          omega
        have := hnone k hk1 hk2
        rcases hb : testExactOverlap G e k with _ | _
        · rfl
        · exact absurd ((testExactOverlap_iff G e k hs ht hkml).mp hb) this
      · have hz : (hi - lo + 1).toNat = 0 := by omega
        rw [hz]
        rfl

theorem autoDetermineExactOverlap_correct_witness :
    min (ovG.node ovE.startingNode).length (ovG.node ovE.endingNode).length = 3 ∧
    autoDetermineExactOverlap ovG ovE 1 5 3 = 2 := by
  constructor
  · decide
  · have h := (autoDetermineExactOverlap_correct ovG ovE 1 5 3 (by decide) (by decide)).2
      (by decide)
    obtain ⟨ha, hb, _, _⟩ := h.1 ⟨2, by decide, by decide, by decide⟩
    revert ha hb
    decide

/-- A list of naturals below `N` in which every value occurs at most twice
has length at most `2 * N`. -/
theorem length_le_two_mul (l : List Nat) (N : Nat)
    (hmem : ∀ v ∈ l, v < N) (hcount : ∀ v, l.count v ≤ 2) : l.length ≤ 2 * N := by
  have h1 : (l.toFinset.sum fun v => l.count v) = l.length := List.sum_toFinset_count_eq_length l
  have h2 : (l.toFinset.sum fun v => l.count v) ≤ l.toFinset.sum fun _ => 2 :=
    Finset.sum_le_sum fun v _ => hcount v
  have h3 : l.toFinset ⊆ Finset.range N := by
    intro v hv
    rw [List.mem_toFinset] at hv
    exact Finset.mem_range.mpr (hmem v hv)
  have h4 : l.toFinset.card ≤ N := by
    have := Finset.card_le_card h3
    rwa [Finset.card_range] at this
  have h5 : (l.toFinset.sum fun _ => 2) = 2 * l.toFinset.card := by
    rw [Finset.sum_const, smul_eq_mul, mul_comm]
  omega

theorem count_append_singleton_le (path : List Nat) (nn v : Nat)
    (hcount : path.count v ≤ 2) (hnext : path.count nn < 2) :
    (path ++ [nn]).count v ≤ 2 := by
  rcases eq_or_ne v nn with rfl | hne
  · rw [List.count_append]
    have h1 : List.count v [v] = 1 := by simp
    omega
  · rw [List.count_append]
    have hz : List.count v [nn] = 0 := by
      rw [List.count_eq_zero]
      simp [hne]
    omega

/-- The accumulator loop of `tracePaths` preserves success and the
node-count bound. -/
theorem trace_foldl_lemma (G : AssemblyGraph) (forward : Bool) (startingNode : Nat)
    (fuel : Nat) (steps : Int) (path : List Nat) :
    ∀ (edges : List Nat) (acc : List (List Nat)),
      (∀ p ∈ acc, ∀ v, List.count v p ≤ 2) →
      (∀ v, List.count v path ≤ 2) →
      (∀ e ∈ edges, timesNodeInPath (nextNodeOf forward (G.edge e)) path < 2 →
        ∃ r, tracePathsF G forward startingNode fuel steps e path = some r ∧
          ∀ p ∈ r, ∀ v, List.count v p ≤ 2) →
      ∃ r, edges.foldl (fun st nextEdge =>
          match st with
          | none => none
          | some allPaths =>
              let nextNextNode := nextNodeOf forward (G.edge nextEdge)
              if nextNextNode = startingNode then some (allPaths ++ [path])
              else if timesNodeInPath nextNextNode path < 2 then
                match tracePathsF G forward startingNode fuel steps nextEdge path with
                | none => none
                | some sub => some (allPaths ++ sub)
              else some allPaths) (some acc) = some r ∧
        ∀ p ∈ r, ∀ v, List.count v p ≤ 2
  | [], acc, hacc, _, _ => ⟨acc, rfl, hacc⟩
  | e :: es, acc, hacc, hpath, hrec => by
      rw [List.foldl_cons]
      by_cases hstart : nextNodeOf forward (G.edge e) = startingNode
      · rw [show (match some acc with
            | none => none
            | some allPaths =>
                let nextNextNode := nextNodeOf forward (G.edge e)
                if nextNextNode = startingNode then some (allPaths ++ [path])
                else if timesNodeInPath nextNextNode path < 2 then
                  match tracePathsF G forward startingNode fuel steps e path with
                  | none => none
                  | some sub => some (allPaths ++ sub)
                else some allPaths) = some (acc ++ [path]) from by
          dsimp only
          rw [if_pos hstart]]
        refine trace_foldl_lemma G forward startingNode fuel steps path es (acc ++ [path])
          ?_ hpath (fun e' he' => hrec e' (List.mem_cons_of_mem _ he'))
        intro p hp
        rcases List.mem_append.mp hp with hp | hp
        · exact hacc p hp
        · simp at hp
          subst hp
          exact hpath
      · by_cases hguard : timesNodeInPath (nextNodeOf forward (G.edge e)) path < 2
        · obtain ⟨r, hr, hrprop⟩ := hrec e (List.mem_cons_self _ _) hguard
          rw [show (match some acc with
              | none => none
              | some allPaths =>
                  let nextNextNode := nextNodeOf forward (G.edge e)
                  if nextNextNode = startingNode then some (allPaths ++ [path])
                  else if timesNodeInPath nextNextNode path < 2 then
                    match tracePathsF G forward startingNode fuel steps e path with
                    | none => none
                    | some sub => some (allPaths ++ sub)
                  else some allPaths) = some (acc ++ r) from by
            dsimp only
            rw [if_neg hstart, if_pos hguard, hr]]
          refine trace_foldl_lemma G forward startingNode fuel steps path es (acc ++ r)
            ?_ hpath (fun e' he' => hrec e' (List.mem_cons_of_mem _ he'))
          intro p hp
          rcases List.mem_append.mp hp with hp | hp
          · exact hacc p hp
          · exact hrprop p hp
        · rw [show (match some acc with
              | none => none
              | some allPaths =>
                  let nextNextNode := nextNodeOf forward (G.edge e)
                  if nextNextNode = startingNode then some (allPaths ++ [path])
                  else if timesNodeInPath nextNextNode path < 2 then
                    match tracePathsF G forward startingNode fuel steps e path with
                    | none => none
                    | some sub => some (allPaths ++ sub)
                  else some allPaths) = some acc from by
            dsimp only
            rw [if_neg hstart, if_neg hguard]]
          exact trace_foldl_lemma G forward startingNode fuel steps path es acc
            hacc hpath (fun e' he' => hrec e' (List.mem_cons_of_mem _ he'))

/-- With fuel at least `2 * numNodes + 1 − pathSoFar.length` the tracer
returns a result, and every emitted path carries every node at most
twice. -/
theorem tracePathsF_some (G : AssemblyGraph) (hWF : G.WF) (forward : Bool)
    (startingNode : Nat) :
    ∀ (fuel : Nat) (steps : Int) (eid : Nat) (path : List Nat),
      eid < G.edges.length →
      (∀ v ∈ path, v < G.nodes.length) →
      (∀ v, path.count v ≤ 2) →
      path.count (nextNodeOf forward (G.edge eid)) < 2 →
      2 * G.nodes.length + 1 ≤ fuel + path.length →
      ∃ r, tracePathsF G forward startingNode fuel steps eid path = some r ∧
        ∀ p ∈ r, ∀ v, List.count v p ≤ 2 := by
  intro fuel
  induction fuel with
  | zero =>
      intro steps eid path _ hmem hcount _ hfuel
      exfalso
      have := length_le_two_mul path G.nodes.length hmem hcount
      omega
  | succ fuel ih =>
      intro steps eid path heid hmem hcount hnext hfuel
      have hedge_mem : G.edge eid ∈ G.edges := by
        rw [AssemblyGraph.edge, List.getD_eq_getElem _ _ heid]
        exact List.getElem_mem _
      have hnn_lt : nextNodeOf forward (G.edge eid) < G.nodes.length := by
        rcases hWF.1 _ hedge_mem with ⟨h1, h2⟩
        rw [nextNodeOf]
        split <;> assumption
      have hcount' : ∀ v, (path ++ [nextNodeOf forward (G.edge eid)]).count v ≤ 2 :=
        fun v => count_append_singleton_le path _ v (hcount v) hnext
      have hmem' : ∀ v ∈ path ++ [nextNodeOf forward (G.edge eid)], v < G.nodes.length := by
        intro v hv
        rcases List.mem_append.mp hv with hv | hv
        · exact hmem v hv
        · simp at hv
          subst hv
          exact hnn_lt
      rw [tracePathsF]
      dsimp only
      by_cases h1 : steps - 1 = 0
      · rw [if_pos h1]
        exact ⟨_, rfl, by
          intro p hp v
          simp only [List.mem_singleton] at hp
          subst hp
          exact hcount' v⟩
      · rw [if_neg h1]
        by_cases h2 : findNextEdgesInPath G (nextNodeOf forward (G.edge eid)) forward = []
        · rw [if_pos h2]
          exact ⟨_, rfl, by
            intro p hp v
            simp only [List.mem_singleton] at hp
            subst hp
            exact hcount' v⟩
        · rw [if_neg h2]
          apply trace_foldl_lemma G forward startingNode fuel (steps - 1)
            (path ++ [nextNodeOf forward (G.edge eid)])
            (findNextEdgesInPath G (nextNodeOf forward (G.edge eid)) forward) []
            (by intro p hp; simp at hp) hcount'
          intro e' he' hguard
          have he'_edges : e' ∈ (G.node (nextNodeOf forward (G.edge eid))).edges :=
            List.mem_of_mem_filter he'
          have hnode_mem : G.node (nextNodeOf forward (G.edge eid)) ∈ G.nodes := by
            rw [AssemblyGraph.node, List.getD_eq_getElem _ _ hnn_lt]
            exact List.getElem_mem _
          have he'_lt : e' < G.edges.length := hWF.2 _ hnode_mem _ he'_edges
          refine ih (steps - 1) e' (path ++ [nextNodeOf forward (G.edge eid)])
            he'_lt hmem' hcount' hguard ?_
          rw [List.length_append]
          simp only [List.length_singleton]
          omega

/-- Claim C3: for every graph, start edge, direction and step bound, the
path enumeration terminates (the wrapper's fuel always suffices) and in
every emitted path each node occurs at most twice; on the simple 3-node
cycle with `maxSteps = 10` the one emitted path has length at most 6. -/
theorem tracePaths_terminates_bounded :
    (∀ (G : AssemblyGraph) (forward : Bool) (maxSteps : Int) (eid startingNode : Nat),
      G.WF → eid < G.edges.length →
      ∃ paths, tracePaths G forward maxSteps eid startingNode = some paths ∧
        ∀ p ∈ paths, ∀ v, List.count v p ≤ 2) ∧
    (tracePaths cycG true 10 0 0 = some [[1, 2]] ∧
      ∀ p ∈ [[1, 2]], List.length p ≤ 2 * 3) := by
  refine ⟨?_, by decide, by decide⟩
  intro G forward maxSteps eid startingNode hWF heid
  rw [tracePaths]
  exact tracePathsF_some G hWF forward startingNode (2 * G.nodes.length + 2) maxSteps eid []
    heid (by intro v hv; simp at hv) (by intro v; simp) (by simp) (by simp)

theorem tracePaths_terminates_bounded_witness :
    ∃ paths, tracePaths cycG true 10 0 0 = some paths ∧
      ∀ p ∈ paths, ∀ v, List.count v p ≤ 2 :=
  tracePaths_terminates_bounded.1 cycG true 10 0 0 (by decide) (by decide)

/-- The reachability loop absorbs a failed state: once `some false`, the
remaining edges leave it unchanged (the C++ early `return false`). -/
theorem leads_foldl_absorb (G : AssemblyGraph) (forward : Bool) (target : Nat)
    (incRC : Bool) (fuel : Nat) (steps : Int) (path : List Nat) :
    ∀ (edges : List Nat) (st : Option Bool), st = some false ∨ st = none →
      edges.foldl (fun st nextEdge =>
        match st with
        | some true =>
            if timesNodeInPath (nextNodeOf forward (G.edge nextEdge)) path < 2 then
              leadsOnlyToNodeF G forward target incRC fuel steps nextEdge path
            else some true
        | other => other) st = st
  | [], st, _ => rfl
  | e :: es, st, h => by
      rcases h with rfl | rfl
      · rw [List.foldl_cons]
        exact leads_foldl_absorb G forward target incRC fuel steps path es
          (some false) (Or.inl rfl)
      · rw [List.foldl_cons]
        exact leads_foldl_absorb G forward target incRC fuel steps path es
          none (Or.inr rfl)

/-- The reachability loop never runs out of fuel when each eligible edge's
recursive call does not. -/
theorem leads_foldl_ne_none (G : AssemblyGraph) (forward : Bool) (target : Nat)
    (incRC : Bool) (fuel : Nat) (steps : Int) (path : List Nat) :
    ∀ (edges : List Nat) (st : Option Bool),
      (∀ e ∈ edges, leadsOnlyToNodeF G forward target incRC fuel steps e path ≠ none) →
      st ≠ none →
      edges.foldl (fun st nextEdge =>
        match st with
        | some true =>
            if timesNodeInPath (nextNodeOf forward (G.edge nextEdge)) path < 2 then
              leadsOnlyToNodeF G forward target incRC fuel steps nextEdge path
            else some true
        | other => other) st ≠ none
  | [], st, _, hst => hst
  | e :: es, st, hrec, hst => by
      rw [List.foldl_cons]
      refine leads_foldl_ne_none G forward target incRC fuel steps path es _
        (fun e' he' => hrec e' (List.mem_cons_of_mem _ he')) ?_
      rcases st with _ | b
      · exact absurd rfl hst
      · rcases b with _ | _
        · exact hst
        · dsimp only
          split
          · exact hrec e (List.mem_cons_self _ _)
          · simp

/-- Fuel adequacy: with fuel at least the (positive) remaining step count,
`leadsOnlyToNodeF` returns a verdict. -/
theorem leadsOnlyToNodeF_ne_none (G : AssemblyGraph) (forward : Bool) (target : Nat)
    (incRC : Bool) :
    ∀ (fuel : Nat) (steps : Int) (eid : Nat) (path : List Nat),
      1 ≤ steps → steps ≤ (fuel : Int) →
      leadsOnlyToNodeF G forward target incRC fuel steps eid path ≠ none := by
  intro fuel
  induction fuel with
  | zero =>
      intro steps eid path h1 h2
      exfalso
      omega
  | succ fuel ih =>
      intro steps eid path h1 h2
      rw [leadsOnlyToNodeF]
      dsimp only
      split
      · simp
      · split
        · simp
        · split
          · simp
          · split
            · simp
            · next hsteps =>
              split
              · simp
              · refine leads_foldl_ne_none G forward target incRC fuel (steps - 1) _ _
                  (some true) ?_ (by simp)
                intro e _
                exact ih (steps - 1) e _ (by omega) (by push_cast; omega)

theorem nodesOf_cons (G : AssemblyGraph) (forward : Bool) (e : Nat) (es : List Nat) :
    nodesOf G forward (e :: es) = nextNodeOf forward (G.edge e) :: nodesOf G forward es :=
  rfl

/-- The reachability loop returns `some false` when some eligible edge's
recursive call fails and no eligible edge's call runs out of fuel. -/
theorem leads_foldl_false (G : AssemblyGraph) (forward : Bool) (target : Nat)
    (incRC : Bool) (fuel : Nat) (steps : Int) (path : List Nat) :
    ∀ (edges : List Nat),
      (∀ e ∈ edges, timesNodeInPath (nextNodeOf forward (G.edge e)) path < 2 →
        leadsOnlyToNodeF G forward target incRC fuel steps e path ≠ none) →
      (∃ e ∈ edges, timesNodeInPath (nextNodeOf forward (G.edge e)) path < 2 ∧
        leadsOnlyToNodeF G forward target incRC fuel steps e path = some false) →
      edges.foldl (fun st nextEdge =>
        match st with
        | some true =>
            if timesNodeInPath (nextNodeOf forward (G.edge nextEdge)) path < 2 then
              leadsOnlyToNodeF G forward target incRC fuel steps nextEdge path
            else some true
        | other => other) (some true) = some false
  | [], _, hex => by simp at hex
  | e :: es, hnn, hex => by
      rw [List.foldl_cons]
      show List.foldl _ (if timesNodeInPath (nextNodeOf forward (G.edge e)) path < 2 then
        leadsOnlyToNodeF G forward target incRC fuel steps e path else some true) es = some false
      by_cases hg : timesNodeInPath (nextNodeOf forward (G.edge e)) path < 2
      · rw [if_pos hg]
        rcases hFe : leadsOnlyToNodeF G forward target incRC fuel steps e path with _ | b
        · exact absurd hFe (hnn e (List.mem_cons_self _ _) hg)
        · rcases b with _ | _
          · exact leads_foldl_absorb G forward target incRC fuel steps path es
              (some false) (Or.inl rfl)
          · refine leads_foldl_false G forward target incRC fuel steps path es
              (fun e' he' => hnn e' (List.mem_cons_of_mem _ he')) ?_
            rcases hex with ⟨e0, he0, hg0, hF0⟩
            rcases List.mem_cons.mp he0 with rfl | he0
            · rw [hFe] at hF0
              exact absurd hF0 (by simp)
            · exact ⟨e0, he0, hg0, hF0⟩
      · rw [if_neg hg]
        refine leads_foldl_false G forward target incRC fuel steps path es
          (fun e' he' => hnn e' (List.mem_cons_of_mem _ he')) ?_
        rcases hex with ⟨e0, he0, hg0, hF0⟩
        rcases List.mem_cons.mp he0 with rfl | he0
        · exact absurd hg0 hg
        · exact ⟨e0, he0, hg0, hF0⟩

/-- Operational core of claim C2: descending along a duplicate-free witness
path that returns to the origin, the search reports failure.  `rest` is the
part of `pathSoFar` after the origin; it avoids the origin and the
witness's intermediate nodes. -/
theorem leadsF_false_nodup (G : AssemblyGraph) (forward : Bool) (target : Nat)
    (incRC : Bool) (origin : Nat) :
    ∀ (es : List Nat) (fuel : Nat) (steps : Int) (rest : List Nat),
      es ≠ [] →
      List.Chain' (stepEdge G forward) es →
      (nodesOf G forward es).getLast? = some origin →
      (∀ n ∈ (nodesOf G forward es).dropLast,
        n ≠ origin ∧ n ≠ target ∧ (incRC = true → (G.node n).rc ≠ target)) →
      (nodesOf G forward es).dropLast.Nodup →
      (∀ n ∈ (nodesOf G forward es).dropLast, n ∉ rest) →
      origin ∉ rest →
      1 ≤ steps → steps ≤ (fuel : Int) →
      leadsOnlyToNodeF G forward target incRC fuel steps (es.headD 0) (origin :: rest)
        = some false
  | [], _, _, _, hne, _, _, _, _, _, _, _, _ => absurd rfl hne
  | [e], fuel, steps, rest, _, _, hlast, _, _, _, _, h1, h2 => by
      have horig : nextNodeOf forward (G.edge e) = origin := by
        rw [nodesOf_cons] at hlast
        simp [nodesOf] at hlast
        exact hlast
      rcases fuel with _ | f
      · exfalso; omega
      · rw [leadsOnlyToNodeF]
        dsimp only
        simp only [List.headD_cons]
        rw [if_pos]
        show nextNodeOf forward (G.edge e) =
          ((origin :: rest) ++ [nextNodeOf forward (G.edge e)]).getD 0 0
        rw [List.cons_append, List.getD_cons_zero, horig]
  | e :: e' :: tl, fuel, steps, rest, _, hchain, hlast, hmid, hnd, hrest, horst, h1, h2 => by
      have hnodes' : nodesOf G forward (e' :: tl) ≠ [] := by
        rw [nodesOf_cons]
        exact List.cons_ne_nil _ _
      have hdl : (nodesOf G forward (e :: e' :: tl)).dropLast =
          nextNodeOf forward (G.edge e) :: (nodesOf G forward (e' :: tl)).dropLast := by
        rw [nodesOf_cons]
        exact List.dropLast_cons_of_ne_nil hnodes'
      have hn1 : nextNodeOf forward (G.edge e) ∈ (nodesOf G forward (e :: e' :: tl)).dropLast := by
        rw [hdl]
        exact List.mem_cons_self _ _
      obtain ⟨hn1o, hn1t, hn1rc⟩ := hmid _ hn1
      have hstep : stepEdge G forward e e' := (List.chain'_cons.mp hchain).1
      have hchain' : List.Chain' (stepEdge G forward) (e' :: tl) := (List.chain'_cons.mp hchain).2
      have hlast' : (nodesOf G forward (e' :: tl)).getLast? = some origin := by
        rw [nodesOf_cons, nodesOf_cons] at hlast
        rw [List.getLast?_cons_cons] at hlast
        rw [nodesOf_cons]
        exact hlast
      have hmid' : ∀ n ∈ (nodesOf G forward (e' :: tl)).dropLast,
          n ≠ origin ∧ n ≠ target ∧ (incRC = true → (G.node n).rc ≠ target) := by
        intro n hnmem
        exact hmid n (by rw [hdl]; exact List.mem_cons_of_mem _ hnmem)
      have hnd' : (nodesOf G forward (e' :: tl)).dropLast.Nodup := by
        rw [hdl] at hnd
        exact (List.nodup_cons.mp hnd).2
      have hn1notin : nextNodeOf forward (G.edge e) ∉ (nodesOf G forward (e' :: tl)).dropLast := by
        rw [hdl] at hnd
        exact (List.nodup_cons.mp hnd).1
      have hrest' : ∀ n ∈ (nodesOf G forward (e' :: tl)).dropLast,
          n ∉ rest ++ [nextNodeOf forward (G.edge e)] := by
        intro n hnmem
        rw [List.mem_append, List.mem_singleton]
        rintro (hin | rfl)
        · exact hrest n (by rw [hdl]; exact List.mem_cons_of_mem _ hnmem) hin
        · exact hn1notin hnmem
      have horst' : origin ∉ rest ++ [nextNodeOf forward (G.edge e)] := by
        rw [List.mem_append, List.mem_singleton]
        rintro (hin | heq)
        · exact horst hin
        · exact hn1o heq.symm
      rcases fuel with _ | f
      · exfalso; omega
      · rw [leadsOnlyToNodeF]
        dsimp only
        simp only [List.headD_cons]
        rw [if_neg (by
          show ¬ (nextNodeOf forward (G.edge e) =
            ((origin :: rest) ++ [nextNodeOf forward (G.edge e)]).getD 0 0)
          rw [List.cons_append, List.getD_cons_zero]
          exact hn1o)]
        rw [if_neg hn1t]
        rw [if_neg (by
          intro hcond
          rw [Bool.and_eq_true, decide_eq_true_eq] at hcond
          exact hn1rc hcond.1 hcond.2)]
        by_cases hso : steps - 1 = 0
        · rw [if_pos hso]
        · rw [if_neg hso]
          rw [if_neg (List.ne_nil_of_mem hstep)]
          have hpath : (origin :: rest) ++ [nextNodeOf forward (G.edge e)] =
              origin :: (rest ++ [nextNodeOf forward (G.edge e)]) := List.cons_append _ _ _
          apply leads_foldl_false
          · intro e2 _ _
            exact leadsOnlyToNodeF_ne_none G forward target incRC f (steps - 1) e2 _
              (by omega) (by push_cast; omega)
          · refine ⟨e', hstep, ?_, ?_⟩
            · -- the witness's next node occurs at most once in the grown path
              rw [timesNodeInPath, hpath]
              rcases tl with _ | ⟨t0, tl'⟩
              · -- the next node is the origin itself
                have h2origin : nextNodeOf forward (G.edge e') = origin := by
                  rw [nodesOf_cons] at hlast'
                  simp [nodesOf] at hlast'
                  exact hlast'
                rw [h2origin]
                rw [List.count_cons_self]
                have hz : List.count origin (rest ++ [nextNodeOf forward (G.edge e)]) = 0 := by
                  rw [List.count_eq_zero]
                  exact horst'
                omega
              · -- the next node is an interior node, absent from the path so far
                have hn2mem : nextNodeOf forward (G.edge e') ∈
                    (nodesOf G forward (e' :: t0 :: tl')).dropLast := by
                  rw [nodesOf_cons, List.dropLast_cons_of_ne_nil (by
                    rw [nodesOf_cons]; exact List.cons_ne_nil _ _)]
                  exact List.mem_cons_self _ _
                have hz : List.count (nextNodeOf forward (G.edge e'))
                    (origin :: (rest ++ [nextNodeOf forward (G.edge e)])) = 0 := by
                  rw [List.count_eq_zero]
                  rw [List.mem_cons]
                  rintro (heq | hin)
                  · exact (hmid' _ hn2mem).1 heq
                  · exact hrest' _ hn2mem hin
                omega
            · -- the recursive descent along the witness fails
              have := leadsF_false_nodup G forward target incRC origin (e' :: tl) f
                (steps - 1) (rest ++ [nextNodeOf forward (G.edge e)])
                (List.cons_ne_nil _ _) hchain' hlast' hmid' hnd' hrest' horst'
                (by omega) (by push_cast; omega)
              rw [List.headD_cons] at this
              rw [hpath]
              exact this

theorem dropLast_drop_comm (l : List Nat) (n : Nat) :
    (l.drop n).dropLast = l.dropLast.drop n := by
  rw [List.dropLast_eq_take, List.dropLast_eq_take, List.drop_take, List.length_drop]
  congr 1
  omega

theorem getLast?_drop_of_ne_nil (l : List Nat) (n : Nat) (h : l.drop n ≠ []) :
    (l.drop n).getLast? = l.getLast? := by
  conv_rhs => rw [← List.take_append_drop n l]
  rw [List.getLast?_append]
  rcases hl : (l.drop n).getLast? with _ | a
  · rw [List.getLast?_eq_none_iff] at hl
    exact absurd hl h
  · rfl

/-- Loop-erasure core: given two positions `i < j` of the intermediate-node
list carrying the same node, splicing the edges between them out of the
witness yields a strictly shorter witness with the same start edge. -/
theorem witness_splice_core (G : AssemblyGraph) (forward : Bool) (origin target : Nat)
    (incRC : Bool) (es : List Nat)
    (hne : es ≠ [])
    (hchain : List.Chain' (stepEdge G forward) es)
    (hlast : (nodesOf G forward es).getLast? = some origin)
    (hmid : ∀ n ∈ (nodesOf G forward es).dropLast,
      n ≠ origin ∧ n ≠ target ∧ (incRC = true → (G.node n).rc ≠ target))
    (i j : Nat) (hij : i < j) (hj : j < es.length - 1)
    (heq : (nodesOf G forward es).dropLast[i]? = (nodesOf G forward es).dropLast[j]?) :
    ∃ es', ReturnsToOrigin G forward origin target incRC es' ∧
      es'.length < es.length ∧ es'.head? = es.head? := by
  have hlnodes : (nodesOf G forward es).length = es.length := List.length_map _ _
  refine ⟨es.take (i + 1) ++ es.drop (j + 1), ⟨?_, ?_, ?_, ?_⟩, ?_, ?_⟩
  · -- nonempty
    intro hcon
    have := congrArg List.length hcon
    rw [List.length_append, List.length_take, List.length_drop] at this
    simp at this
    omega
  · -- chain
    refine List.chain'_append.mpr ⟨hchain.take _, hchain.drop _, ?_⟩
    intro x hx y hy
    rw [List.take_succ, List.getElem?_eq_getElem (by omega : i < es.length)] at hx
    rw [Option.toList_some, List.getLast?_concat] at hx
    simp only [Option.mem_def, Option.some.injEq] at hx
    rw [List.head?_drop, List.getElem?_eq_getElem (by omega : j + 1 < es.length)] at hy
    simp only [Option.mem_def, Option.some.injEq] at hy
    subst hx
    subst hy
    have hstepj : stepEdge G forward (es.get ⟨j, by omega⟩) (es.get ⟨j + 1, by omega⟩) :=
      List.chain'_iff_get.mp hchain j (by omega)
    have hnodei : (nodesOf G forward es).dropLast[i]? =
        some (nextNodeOf forward (G.edge es[i])) := by
      rw [List.dropLast_eq_take, List.getElem?_take, if_pos (by omega)]
      rw [nodesOf, List.getElem?_map, List.getElem?_eq_getElem (by omega : i < es.length)]
      rfl
    have hnodej : (nodesOf G forward es).dropLast[j]? =
        some (nextNodeOf forward (G.edge es[j])) := by
      rw [List.dropLast_eq_take, List.getElem?_take, if_pos (by omega)]
      rw [nodesOf, List.getElem?_map, List.getElem?_eq_getElem (by omega : j < es.length)]
      rfl
    have hnn : nextNodeOf forward (G.edge es[i]) = nextNodeOf forward (G.edge es[j]) := by
      rw [hnodei, hnodej] at heq
      exact Option.some_injective _ heq
    show es[j + 1] ∈ findNextEdgesInPath G (nextNodeOf forward (G.edge es[i])) forward
    rw [hnn]
    simp only [List.get_eq_getElem] at hstepj
    exact hstepj
  · -- last node is the origin
    have hmapsplit : nodesOf G forward (es.take (i + 1) ++ es.drop (j + 1)) =
        (nodesOf G forward es).take (i + 1) ++ (nodesOf G forward es).drop (j + 1) := by
      rw [nodesOf, List.map_append, List.map_take, List.map_drop]
      rfl
    rw [hmapsplit, List.getLast?_append]
    have hdropne : (nodesOf G forward es).drop (j + 1) ≠ [] := by
      intro hcon
      have := congrArg List.length hcon
      rw [List.length_drop] at this
      simp at this
      omega
    rw [getLast?_drop_of_ne_nil _ _ hdropne, hlast]
    rfl
  · -- intermediate nodes inherit the avoidance conditions
    intro n hn
    have hmapsplit : nodesOf G forward (es.take (i + 1) ++ es.drop (j + 1)) =
        (nodesOf G forward es).take (i + 1) ++ (nodesOf G forward es).drop (j + 1) := by
      rw [nodesOf, List.map_append, List.map_take, List.map_drop]
      rfl
    have hdropne : (nodesOf G forward es).drop (j + 1) ≠ [] := by
      intro hcon
      have := congrArg List.length hcon
      rw [List.length_drop] at this
      simp at this
      omega
    rw [hmapsplit, List.dropLast_append_of_ne_nil _ hdropne] at hn
    rcases List.mem_append.mp hn with hn | hn
    · refine hmid n ?_
      rw [List.dropLast_eq_take]
      have htt : (nodesOf G forward es).take (i + 1) =
          ((nodesOf G forward es).take ((nodesOf G forward es).length - 1)).take (i + 1) := by
        rw [List.take_take]
        congr 1
        omega
      rw [htt] at hn
      exact (List.take_sublist _ _).mem hn
    · refine hmid n ?_
      rw [dropLast_drop_comm] at hn
      exact List.mem_of_mem_drop hn
  · -- strictly shorter
    rw [List.length_append, List.length_take, List.length_drop]
    have : min (i + 1) es.length = i + 1 := by
      rw [min_eq_left]
      omega
    omega
  · -- same start edge
    rw [List.head?_append]
    have h1 : (es.take (i + 1)).head? = es.head? := by
      rw [List.head?_eq_getElem?, List.head?_eq_getElem?, List.getElem?_take,
        if_pos (by omega : 0 < i + 1)]
    rw [h1]
    rcases hx : es.head? with _ | x
    · rw [List.head?_eq_none_iff] at hx
      exact absurd hx hne
    · rfl

/-- Loop erasure: a witness whose intermediate nodes repeat can be strictly
shortened keeping the same start edge. -/
theorem witness_splice (G : AssemblyGraph) (forward : Bool) (origin target : Nat)
    (incRC : Bool) (es : List Nat)
    (hRet : ReturnsToOrigin G forward origin target incRC es)
    (hnd : ¬ (nodesOf G forward es).dropLast.Nodup) :
    ∃ es', ReturnsToOrigin G forward origin target incRC es' ∧
      es'.length < es.length ∧ es'.head? = es.head? := by
  obtain ⟨hne, hchain, hlast, hmid⟩ := hRet
  have hlnodes : (nodesOf G forward es).length = es.length := List.length_map _ _
  have hldrop : (nodesOf G forward es).dropLast.length = es.length - 1 := by
    rw [List.length_dropLast, hlnodes]
  rw [List.nodup_iff_injective_get, Function.not_injective_iff] at hnd
  obtain ⟨a, b, hab, hne'⟩ := hnd
  have hget : ∀ x : Fin (nodesOf G forward es).dropLast.length,
      (nodesOf G forward es).dropLast[x.val]? =
        some ((nodesOf G forward es).dropLast.get x) := by
    intro x
    rw [List.getElem?_eq_getElem x.isLt]
    rfl
  rcases lt_or_gt_of_ne (Fin.val_ne_of_ne hne') with h | h
  · refine witness_splice_core G forward origin target incRC es hne hchain hlast hmid
      a.val b.val h (by have := b.isLt; omega) ?_
    rw [hget a, hget b, hab]
  · refine witness_splice_core G forward origin target incRC es hne hchain hlast hmid
      b.val a.val h (by have := a.isLt; omega) ?_
    rw [hget a, hget b, hab]

theorem leadsF_false_general (G : AssemblyGraph) (forward : Bool) (target : Nat)
    (incRC : Bool) (origin : Nat) :
    ∀ (bound : Nat) (es : List Nat), es.length ≤ bound →
      ReturnsToOrigin G forward origin target incRC es →
      ∀ (fuel : Nat) (steps : Int), 1 ≤ steps → steps ≤ (fuel : Int) →
      leadsOnlyToNodeF G forward target incRC fuel steps (es.headD 0) [origin]
        = some false := by
  intro bound
  induction bound with
  | zero =>
      intro es hlen hRet fuel steps _ _
      exact absurd (List.length_eq_zero.mp (Nat.le_zero.mp hlen)) hRet.1
  | succ bound ih =>
      intro es hlen hRet fuel steps h1 h2
      by_cases hnd : (nodesOf G forward es).dropLast.Nodup
      · exact leadsF_false_nodup G forward target incRC origin es fuel steps []
          hRet.1 hRet.2.1 hRet.2.2.1 hRet.2.2.2 hnd (by intro n _; simp) (by simp) h1 h2
      · obtain ⟨es', hRet', hlt, hhead⟩ := witness_splice G forward origin target incRC es
          hRet hnd
        have hres := ih es' (by omega) hRet' fuel steps h1 h2
        have hh : es'.headD 0 = es.headD 0 := by
          rw [List.headD_eq_head?_getD, List.headD_eq_head?_getD, hhead]
        rw [hh] at hres
        exact hres

/-- Claim C2: whenever some directed path of at most `maxSteps` hops from
the start edge returns to the traversal's origin before reaching the
target (or, when enabled, the target's reverse complement),
`leadsOnlyToNode` returns `false`; in particular it does so for any graph
with a cycle through the origin avoiding the target. -/
theorem leadsOnlyToNode_cycle_false (G : AssemblyGraph) (forward : Bool)
    (origin target : Nat) (includeReverseComplement : Bool) (maxSteps : Int)
    (startEdge : Nat) (es : List Nat)
    (hRet : ReturnsToOrigin G forward origin target includeReverseComplement es)
    (hhead : es.head? = some startEdge)
    (hlen : (es.length : Int) ≤ maxSteps) :
    leadsOnlyToNode G forward maxSteps startEdge target [origin]
      includeReverseComplement = some false := by
  have hlp : 0 < es.length := List.length_pos.mpr hRet.1
  have h1 : 1 ≤ maxSteps := by
    have : (1 : Int) ≤ (es.length : Int) := by exact_mod_cast hlp
    omega
  rw [leadsOnlyToNode]
  have h2 : maxSteps ≤ ((maxSteps.toNat + 1 : Nat) : Int) := by
    push_cast
    omega
  have hres := leadsF_false_general G forward target includeReverseComplement origin
    es.length es le_rfl hRet (maxSteps.toNat + 1) maxSteps h1 h2
  have hh : es.headD 0 = startEdge := by
    rw [List.headD_eq_head?_getD, hhead]
    rfl
  rw [hh] at hres
  exact hres

theorem leadsOnlyToNode_cycle_false_witness :
    leadsOnlyToNode loopG true 5 0 2 [0] false = some false := by
  refine leadsOnlyToNode_cycle_false loopG true 0 2 false 5 0 [0, 1]
    ⟨by decide, ?_, by decide, by decide⟩ rfl (by decide)
  rw [List.chain'_pair]
  decide

end Bandage
